import Mathlib

/-! Transaction sync scheduler of `netsync/tx_keeper.go`.

A shallow embedding of `txSyncLoop` (with its two closures `send` and `pick`),
of `syncTransactions`, of `txBroadcastLoop` and of the constant
`txSyncPackSize`, followed by the properties checked against the written
specification of the scheduler.

Conventions of the embedding:

* a `*massutil.Tx` is a `Tx`: an identity and the length of the byte slice
  returned by `Bytes(wire.Packet)`; the length is a Go `int`, hence below
  `2 ^ 63`;
* `uint64` arithmetic is `Nat` arithmetic modulo `2 ^ 64`;
* the map `pending` is an association list, `delete` and assignment act on
  every entry of the key;
* the peer registry is outside the loop: the event being handled carries the
  identifiers `getPeer` resolves at that moment;
* the iteration order of `range pending` and the value of `rand.Intn` are
  carried by the event that triggers `pick`;
* the goroutine started by `send` is recorded in a ghost list `launched`, the
  values received from `done` are counted by the ghost counter `received`.
-/

namespace netsync

/-! ## Data model -/

/-- Target size of a pack, `txSyncPackSize = 100 * 1024`. -/
def txSyncPackSize : Nat := 100 * 1024

/-- A transaction handle: `id` tells transactions apart, `wireLen` is
`len(txBytes)` for `txBytes, _ := tx.Bytes(wire.Packet)`. -/
structure Tx where
  id : Nat
  wireLen : Nat
  wireLen_lt : wireLen < 2 ^ 63
  deriving DecidableEq

/-- The struct `txSyncMsg`. -/
structure txSyncMsg where
  peerID : String
  txs : List Tx
  deriving DecidableEq

/-- The map `pending : map[string]*txSyncMsg`. -/
abbrev PendingTable := List (String × txSyncMsg)

/-- The lookup `pending[k]`. -/
def PendingTable.get? (m : PendingTable) (k : String) : Option txSyncMsg :=
  (m.find? (fun e => e.1 == k)).map (fun e => e.2)

/-- The statement `delete(pending, k)`. -/
def PendingTable.delete (m : PendingTable) (k : String) : PendingTable :=
  m.filter (fun e => !(e.1 == k))

/-- The statement `pending[k] = v`. -/
def PendingTable.set (m : PendingTable) (k : String) (v : txSyncMsg) : PendingTable :=
  if m.any (fun e => e.1 == k) then m.map (fun e => if e.1 == k then (k, v) else e)
  else m ++ [(k, v)]

/-- The effect on the map of `msg.txs = rest` for the message the map holds
under `msg.peerID`: the map stores the pointer, so the entry sees the new
slice. A map without that message is left as it is. -/
def PendingTable.truncate (m : PendingTable) (msg : txSyncMsg) (rest : List Tx) :
    PendingTable :=
  m.map (fun e => if e.1 == msg.peerID ∧ e.2 = msg then (e.1, { msg with txs := rest }) else e)

/-- The local state of `txSyncLoop`, with the ghost record of the goroutines
started (`launched`: peer and pack, oldest first), the ghost count of the
values taken from `done` (`received`) and the errors logged as warnings. -/
structure LoopState where
  pending : PendingTable
  sending : Bool
  launched : List (String × List Tx)
  received : Nat
  warned : List String
  deriving DecidableEq

/-- State of `txSyncLoop` before its first event. -/
def LoopState.init : LoopState :=
  { pending := [], sending := false, launched := [], received := 0, warned := [] }

/-! ## The closure `send` -/

/-- The `for` loop of `send`: `todo` is `msg.txs[i:]`, the result is the
final `(sendTxs, totalSize)`. -/
def packLoop : List Tx → Nat → List Tx → List Tx × Nat
  | [], totalSize, sendTxs => (sendTxs, totalSize)
  | tx :: todo, totalSize, sendTxs =>
    if totalSize < txSyncPackSize then
      packLoop todo ((totalSize + tx.wireLen) % 2 ^ 64) (sendTxs ++ [tx])
    else (sendTxs, totalSize)

/-- The pack `sendTxs` built by `send` for the transactions `txs`. -/
def sendTxs (txs : List Tx) : List Tx := (packLoop txs 0 []).1

/-- The closure `send`; `peers` lists the identifiers for which `getPeer`
returns a peer. -/
def send (peers : List String) (st : LoopState) (msg : txSyncMsg) : LoopState :=
  if msg.peerID ∈ peers then
    let pack := sendTxs msg.txs
    let pending :=
      if msg.txs.length = pack.length then st.pending.delete msg.peerID
      else st.pending.truncate msg (msg.txs.drop pack.length)
    { st with pending := pending, sending := true,
              launched := st.launched ++ [(msg.peerID, pack)] }
  else
    { st with pending := st.pending.delete msg.peerID }

/-! ## The closure `pick` -/

/-- The `range` loop of `pick`: `n` is decremented, the entry at which it
reaches zero is returned. -/
def pickLoop : List (String × txSyncMsg) → Int → Option txSyncMsg
  | [], _ => none
  | e :: rest, n => if n - 1 = 0 then some e.2 else pickLoop rest (n - 1)

/-- The closure `pick`: `order` is the sequence of entries `range pending`
yields, `r` the value of `rand.Intn(len(pending))`. -/
def pick (pending : PendingTable) (order : List (String × txSyncMsg)) (r : Nat) :
    Option txSyncMsg :=
  if pending.length = 0 then none else pickLoop order ((r : Int) + 1)

/-! ## The event loop -/

/-- What one iteration of the `select` receives. -/
inductive Event where
  /-- The case `msg := <-sm.txSyncCh`. -/
  | sync (msg : txSyncMsg) (peers : List String)
  /-- The case `err := <-done`, with the iteration order and the random draw `pick`
  meets. -/
  | done (err : Option String) (peers : List String)
      (order : List (String × txSyncMsg)) (r : Nat)
  deriving DecidableEq

/-- One iteration of the `for { select { ... } }` of `txSyncLoop`. -/
def handle (st : LoopState) : Event → LoopState
  | .sync msg peers =>
    let st1 := { st with pending := st.pending.set msg.peerID msg }
    if !st1.sending then send peers st1 msg else st1
  | .done err peers order r =>
    let st1 := { st with sending := false, received := st.received + 1 }
    let st2 :=
      match err with
      | some e => { st1 with warned := st1.warned ++ [e] }
      | none => st1
    match pick st2.pending order r with
    | some s => send peers st2 s
    | none => st2

/-- The event can occur in the state: a value is on `done` only when a
goroutine put it there, `range` yields the entries of the map, each once, and
`rand.Intn(n)` is below `n`. -/
def Event.enabled (st : LoopState) : Event → Prop
  | .sync _ _ => True
  | .done _ _ order r =>
    st.received < st.launched.length ∧ order.Perm st.pending ∧
      (st.pending ≠ [] → r < st.pending.length)

/-- The states the loop can be in when it waits for its next event. -/
inductive Reachable : LoopState → Prop where
  | init : Reachable LoopState.init
  | step {st : LoopState} (e : Event) : Reachable st → e.enabled st → Reachable (handle st e)

/-- Handling a sequence of events, oldest first. -/
def run (st : LoopState) (es : List Event) : LoopState := es.foldl handle st

/-! ## Auxiliary notions used by the statements -/

/-- Sum of the wire sizes of a sequence of transactions. -/
def wireSum (l : List Tx) : Nat := (l.map Tx.wireLen).sum

/-- The pack as a function of the transactions left and the running total,
without the accumulator and without the reduction modulo `2 ^ 64`. -/
def packFrom : List Tx → Nat → List Tx
  | [], _ => []
  | tx :: todo, total =>
    if total < txSyncPackSize then tx :: packFrom todo (total + tx.wireLen) else []

/-- Every key occurs once and is the `peerID` of the message stored under it. -/
def PendingTable.WF (m : PendingTable) : Prop :=
  (m.map Prod.fst).Nodup ∧ ∀ e ∈ m, e.2.peerID = e.1


/-- The transactions still to send to peer `p`: those of its entry in the
map, none when it has no entry. -/
def LoopState.remaining (st : LoopState) (p : String) : List Tx :=
  match st.pending.get? p with
  | some s => s.txs
  | none => []

/-- The transactions of the packs handed to goroutines for peer `p`, in the
order of sending. -/
def sentTo (p : String) (log : List (String × List Tx)) : List Tx :=
  ((log.filter (fun x => x.1 == p)).map (fun x => x.2)).flatten

/-- One turn for peer `p`: `send` on the entry the map holds for `p`, as when
`pick` returns that entry. -/
def serve (peers : List String) (p : String) (st : LoopState) : LoopState :=
  match st.pending.get? p with
  | some s => send peers st s
  | none => st

/-- The registry snapshot the event carries. -/
def Event.peers : Event → List String
  | .sync _ peers => peers
  | .done _ peers _ _ => peers

/-- A transaction of 40 KiB on the wire. -/
def tx40 (i : Nat) : Tx := ⟨i, 40960, by decide⟩

/-- A transaction of 500 KiB on the wire. -/
def tx500 (i : Nat) : Tx := ⟨i, 512000, by decide⟩

/-- The request of peer `p1` with three transactions of 40 KiB. -/
def req3 : txSyncMsg := ⟨"p1", [tx40 1, tx40 2, tx40 3]⟩

/-- The loop state in which `send` runs for `req3`: the request is stored,
nothing is being sent. -/
def st3 : LoopState :=
  { pending := [("p1", req3)], sending := false, launched := [], received := 0, warned := [] }

/-- The request of peer `pb` with four transactions of 40 KiB. -/
def req4 : txSyncMsg := ⟨"pb", [tx40 2, tx40 3, tx40 4, tx40 5]⟩

/-- Two requests pending while a pack is underway: `pa` has one transaction
left, `pb` four. -/
def stBusy : LoopState :=
  { pending := [("pa", ⟨"pa", [tx40 1]⟩), ("pb", req4)],
    sending := true, launched := [("pc", [tx40 9])], received := 0, warned := [] }

/-- Number of goroutines started whose value the loop has not yet taken from
`done`. -/
def LoopState.inFlight (st : LoopState) : Nat := st.launched.length - st.received

/-- Every event of the sequence can occur in the state it is handled in. -/
def runnable : LoopState → List Event → Prop
  | _, [] => True
  | st, e :: es => e.enabled st ∧ runnable (handle st e) es

/-- The event is a request of peer `p`. -/
def Event.isSyncOf (p : String) : Event → Prop
  | .sync m _ => m.peerID = p
  | .done _ _ _ _ => False

/-- The state of the loop in the `done` case once `sending` is reset and the
error, if any, is logged: the state `pick` and `send` then work on. -/
def LoopState.tookDone (st : LoopState) (err : Option String) : LoopState :=
  { st with sending := false, received := st.received + 1,
            warned := match err with
              | some e => st.warned ++ [e]
              | none => st.warned }

/-- The bookkeeping of one request of peer `p` with transactions `B`, stored
when the record of goroutines was `base`: the packs started for `p` since
then, followed by what the map still holds for `p`, are `B`. -/
def servedInv (p : String) (B : List Tx) (base : List (String × List Tx))
    (st : LoopState) : Prop :=
  st.pending.WF ∧
    ∃ sent, st.launched = base ++ sent ∧ sentTo p sent ++ st.remaining p = B

/-- The request of peer `p1` with four transactions of 40 KiB. -/
def req4p1 : txSyncMsg := ⟨"p1", [tx40 1, tx40 2, tx40 3, tx40 4]⟩

/-- Three requests: that of `p0` is sent at once, those of `p1` and `p2`
wait behind it. -/
def threeRequests : List Event :=
  [.sync ⟨"p0", [tx40 9]⟩ ["p0", "p1", "p2"],
   .sync ⟨"p1", [tx40 1]⟩ ["p0", "p1", "p2"],
   .sync ⟨"p2", [tx40 2]⟩ ["p0", "p1", "p2"]]

/-- The outcome of the pack of `p0` arrives when `p1` has left the registry;
`range` yields the entry of `p1` first and the draw is 0. -/
def doneP1Gone : Event :=
  .done none ["p0", "p2"] [("p1", ⟨"p1", [tx40 1]⟩), ("p2", ⟨"p2", [tx40 2]⟩)] 0

/-! ## `syncTransactions` and `txBroadcastLoop` -/

/-- Modelled from the spec: the descriptor type returned by
`sm.txPool.TxDescs()` is declared outside this file; the spec describes the
backlog as an ordered sequence of (transaction, metadata), and the code reads
the field `Tx` only. -/
structure TxDesc where
  Tx : netsync.Tx
  info : Nat
  deriving DecidableEq

/-- The content of a slot of `make([]*massutil.Tx, n)` before it is assigned. -/
def nilTx : Tx := ⟨0, 0, by decide⟩

/-- The loop `for i, batch := range pending { txs[i] = batch.Tx }` of
`syncTransactions`: `i` is the index of the head of the descriptors left. -/
def fillTxs : List TxDesc → Nat → List Tx → List Tx
  | [], _, txs => txs
  | batch :: todo, i, txs => fillTxs todo (i + 1) (txs.set i batch.Tx)

/-- The function `syncTransactions`: `pending` is the value of
`sm.txPool.TxDescs()`, `txSyncCh` the messages sent on the channel so far,
oldest first; the result is the channel afterwards. -/
def syncTransactions (peerID : String) (pending : List TxDesc)
    (txSyncCh : List txSyncMsg) : List txSyncMsg :=
  if pending.length = 0 then txSyncCh
  else
    let txs := fillTxs pending 0 (List.replicate pending.length nilTx)
    txSyncCh ++ [⟨peerID, txs⟩]

/-- What one iteration of the `select` of `txBroadcastLoop` receives. -/
inductive RelayEvent where
  /-- The case `newTx := <-sm.newTxCh`, with the error `broadcastTx` returns
  for it. -/
  | newTx (tx : Tx) (err : Option String)
  /-- The case `<-sm.quitSync`. -/
  | quitSync
  deriving DecidableEq

/-- What `txBroadcastLoop` did: the calls of `sm.peers.broadcastTx`, oldest
first, the errors logged, and whether the function returned. -/
structure RelayState where
  broadcast : List Tx
  logged : List String
  returned : Bool
  deriving DecidableEq

/-- The function `txBroadcastLoop` on the sequence of events its `select`
receives; the result is what it did and the events it left unread. -/
def txBroadcastLoop : List RelayEvent → RelayState → RelayState × List RelayEvent
  | [], st => (st, [])
  | .newTx tx err :: es, st =>
    let st1 := { st with broadcast := st.broadcast ++ [tx] }
    match err with
    | some e => txBroadcastLoop es { st1 with logged := st1.logged ++ [e] }
    | none => txBroadcastLoop es st1
  | .quitSync :: es, st => ({ st with returned := true }, es)

/-- No entry of the map has an empty sequence of transactions. -/
def PendingTable.noEmpty (m : PendingTable) : Prop := ∀ e ∈ m, e.2.txs ≠ []

/-- The event, when it is a request, carries at least one transaction. -/
def Event.carriesTxs : Event → Prop
  | .sync m _ => m.txs ≠ []
  | .done _ _ _ _ => True

/-- The state in which the loop waits after `threeRequests` and
`doneP1Gone`. -/
def stStranded : LoopState := handle (run LoopState.init threeRequests) doneP1Gone

/-! ## The pack built by `send` -/

@[simp] theorem wireSum_nil : wireSum [] = 0 := rfl

@[simp] theorem wireSum_cons (tx : Tx) (l : List Tx) :
    wireSum (tx :: l) = tx.wireLen + wireSum l := by
  simp [wireSum]

theorem wireSum_append (l₁ l₂ : List Tx) : wireSum (l₁ ++ l₂) = wireSum l₁ + wireSum l₂ := by
  simp [wireSum]

/-- The `uint64` addition of `send` never wraps: it runs only below the
target size and adds a Go `int`. -/
theorem add_wireLen_mod (total : Nat) (tx : Tx) (h : total < txSyncPackSize) :
    (total + tx.wireLen) % 2 ^ 64 = total + tx.wireLen := by
  apply Nat.mod_eq_of_lt
  have h1 := tx.wireLen_lt
  have h2 : txSyncPackSize = 102400 := rfl
  omega

theorem packLoop_eq (todo : List Tx) :
    ∀ (total : Nat) (acc : List Tx),
      packLoop todo total acc
        = (acc ++ packFrom todo total, total + wireSum (packFrom todo total)) := by
  induction todo with
  | nil => intro total acc; simp [packLoop, packFrom]
  | cons tx todo ih =>
    intro total acc
    by_cases h : total < txSyncPackSize
    · have hm : (total + tx.wireLen) % 2 ^ 64 = total + tx.wireLen := add_wireLen_mod total tx h
      simp only [packLoop, packFrom, h, if_true, hm, ih, wireSum_cons]
      simp [Nat.add_assoc]
    · simp [packLoop, packFrom, h]

theorem sendTxs_eq (txs : List Tx) : sendTxs txs = packFrom txs 0 := by
  simp [sendTxs, packLoop_eq]

theorem packFrom_length_le (todo : List Tx) :
    ∀ total, (packFrom todo total).length ≤ todo.length := by
  induction todo with
  | nil => intro total; simp [packFrom]
  | cons tx todo ih =>
    intro total
    by_cases h : total < txSyncPackSize
    · simpa [packFrom, h] using ih _
    · simp [packFrom, h]

theorem packFrom_eq_take (todo : List Tx) :
    ∀ total, packFrom todo total = todo.take (packFrom todo total).length := by
  induction todo with
  | nil => intro total; simp [packFrom]
  | cons tx todo ih =>
    intro total
    by_cases h : total < txSyncPackSize
    · simpa [packFrom, h] using ih _
    · simp [packFrom, h]

/-- Below the length of the pack every prefix is under the target size. -/
theorem packFrom_prefix_lt (todo : List Tx) :
    ∀ total j, j < (packFrom todo total).length →
      total + wireSum (todo.take j) < txSyncPackSize := by
  induction todo with
  | nil => intro total j hj; simp [packFrom] at hj
  | cons tx todo ih =>
    intro total j hj
    by_cases h : total < txSyncPackSize
    · cases j with
      | zero => simpa using h
      | succ j =>
        simp only [packFrom, h, if_true, List.length_cons, Nat.succ_lt_succ_iff] at hj
        have := ih _ j hj
        simpa [Nat.add_assoc] using this
    · simp [packFrom, h] at hj

/-- A pack that stops before the end has reached the target size. -/
theorem packFrom_stop_ge (todo : List Tx) :
    ∀ total, (packFrom todo total).length < todo.length →
      txSyncPackSize ≤ total + wireSum (packFrom todo total) := by
  induction todo with
  | nil => intro total h; simp at h
  | cons tx todo ih =>
    intro total hlen
    by_cases h : total < txSyncPackSize
    · simp only [packFrom, h, if_true, List.length_cons, Nat.succ_lt_succ_iff] at hlen
      have := ih _ hlen
      simpa [packFrom, h, Nat.add_assoc] using this
    · simp only [packFrom, h, if_false, wireSum_nil]
      omega

theorem packFrom_ne_nil (tx : Tx) (todo : List Tx) (total : Nat) (h : total < txSyncPackSize) :
    packFrom (tx :: todo) total ≠ [] := by
  simp [packFrom, h]

theorem sendTxs_append_drop (txs : List Tx) :
    sendTxs txs ++ txs.drop (sendTxs txs).length = txs := by
  have h := packFrom_eq_take txs 0
  rw [sendTxs_eq]
  generalize (packFrom txs 0).length = k at h
  rw [h]
  exact List.take_append_drop k txs

theorem sendTxs_length_le (txs : List Tx) : (sendTxs txs).length ≤ txs.length := by
  rw [sendTxs_eq]; exact packFrom_length_le txs 0

theorem sendTxs_ne_nil (txs : List Tx) (h : txs ≠ []) : sendTxs txs ≠ [] := by
  cases txs with
  | nil => exact absurd rfl h
  | cons tx todo => rw [sendTxs_eq]; exact packFrom_ne_nil tx todo 0 (by decide)


/-! ## The map `pending` -/

theorem get?_nil (k : String) : PendingTable.get? [] k = none := rfl

theorem get?_cons (e : String × txSyncMsg) (m : PendingTable) (k : String) :
    PendingTable.get? (e :: m) k = if e.1 = k then some e.2 else PendingTable.get? m k := by
  by_cases h : e.1 = k <;> simp [PendingTable.get?, List.find?_cons, h]

theorem get?_delete_self (m : PendingTable) (k : String) : (m.delete k).get? k = none := by
  induction m with
  | nil => rfl
  | cons e m ih =>
    by_cases h : e.1 = k
    · simpa [PendingTable.delete, List.filter_cons, h] using ih
    · have : PendingTable.delete (e :: m) k = e :: PendingTable.delete m k := by
        simp [PendingTable.delete, List.filter_cons, h]
      rw [this, get?_cons, if_neg h, ih]

theorem get?_delete_ne (m : PendingTable) (k k' : String) (hk : k' ≠ k) :
    (m.delete k).get? k' = m.get? k' := by
  induction m with
  | nil => rfl
  | cons e m ih =>
    by_cases h : e.1 = k
    · have h' : e.1 ≠ k' := fun h2 => hk (h2.symm.trans h)
      have : PendingTable.delete (e :: m) k = PendingTable.delete m k := by
        simp [PendingTable.delete, List.filter_cons, h]
      rw [this, get?_cons, if_neg h', ih]
    · have : PendingTable.delete (e :: m) k = e :: PendingTable.delete m k := by
        simp [PendingTable.delete, List.filter_cons, h]
      rw [this, get?_cons, get?_cons, ih]

theorem get?_eq_none_iff (m : PendingTable) (k : String) :
    m.get? k = none ↔ ∀ e ∈ m, e.1 ≠ k := by
  induction m with
  | nil => simp [get?_nil]
  | cons e m ih =>
    rw [get?_cons]
    by_cases h : e.1 = k
    · simp [h]
    · simp [h, ih]

theorem any_key_iff (m : PendingTable) (k : String) :
    m.any (fun e => e.1 == k) = true ↔ m.get? k ≠ none := by
  rw [Ne, get?_eq_none_iff]
  simp

theorem get?_map_key (m : PendingTable) (k : String) (v : txSyncMsg) (k' : String) :
    PendingTable.get? (m.map (fun e => if e.1 == k then (k, v) else e)) k'
      = if k' = k then (m.get? k).map (fun _ => v) else m.get? k' := by
  induction m with
  | nil => simp [get?_nil]
  | cons e m ih =>
    rw [List.map_cons, get?_cons, get?_cons, get?_cons, ih]
    by_cases h : e.1 = k
    · by_cases h' : k' = k
      · simp [h, h']
      · have : ¬ k = k' := fun h2 => h' h2.symm
        simp [h, h', this]
    · by_cases h' : k' = k
      · subst h'
        simp [h]
      · simp [h, h']

theorem get?_append_single (m : PendingTable) (k : String) (v : txSyncMsg) (k' : String) :
    PendingTable.get? (m ++ [(k, v)]) k'
      = match m.get? k' with
        | some x => some x
        | none => if k = k' then some v else none := by
  induction m with
  | nil => simp [get?_cons, get?_nil]
  | cons e m ih =>
    rw [List.cons_append, get?_cons, get?_cons, ih]
    by_cases h : e.1 = k' <;> simp [h]

theorem get?_set_self (m : PendingTable) (k : String) (v : txSyncMsg) :
    (m.set k v).get? k = some v := by
  unfold PendingTable.set
  split
  · rename_i h
    rw [get?_map_key, if_pos rfl]
    rw [any_key_iff] at h
    cases hg : PendingTable.get? m k with
    | none => exact absurd hg h
    | some x => rfl
  · rename_i h
    have hn : m.get? k = none := by
      by_contra hc
      exact h ((any_key_iff m k).2 hc)
    rw [get?_append_single, hn]
    simp

theorem get?_set_ne (m : PendingTable) (k k' : String) (v : txSyncMsg) (hk : k' ≠ k) :
    (m.set k v).get? k' = m.get? k' := by
  unfold PendingTable.set
  split
  · rw [get?_map_key, if_neg hk]
  · rw [get?_append_single]
    have : ¬ k = k' := fun h2 => hk h2.symm
    cases hg : PendingTable.get? m k' <;> simp [this]

theorem get?_truncate_ne (m : PendingTable) (msg : txSyncMsg) (rest : List Tx) (k' : String)
    (hk : k' ≠ msg.peerID) : (m.truncate msg rest).get? k' = m.get? k' := by
  induction m with
  | nil => rfl
  | cons e m ih =>
    have hc : PendingTable.truncate (e :: m) msg rest
        = (if e.1 == msg.peerID ∧ e.2 = msg then (e.1, { msg with txs := rest }) else e)
            :: PendingTable.truncate m msg rest := rfl
    rw [hc, get?_cons, get?_cons, ih]
    by_cases h : e.1 = msg.peerID
    · have h' : e.1 ≠ k' := fun h2 => hk (h2.symm.trans h)
      split <;> simp [h']
    · simp [h]

theorem get?_truncate_self (m : PendingTable) (msg : txSyncMsg) (rest : List Tx)
    (hm : m.get? msg.peerID = some msg) :
    (m.truncate msg rest).get? msg.peerID = some { msg with txs := rest } := by
  induction m with
  | nil => simp [get?_nil] at hm
  | cons e m ih =>
    have hc : PendingTable.truncate (e :: m) msg rest
        = (if e.1 == msg.peerID ∧ e.2 = msg then (e.1, { msg with txs := rest }) else e)
            :: PendingTable.truncate m msg rest := rfl
    rw [get?_cons] at hm
    rw [hc, get?_cons]
    by_cases h : e.1 = msg.peerID
    · rw [if_pos h] at hm
      have h2 : e.2 = msg := Option.some.inj hm
      simp [h, h2]
    · rw [if_neg h] at hm
      simp [h, ih hm]


theorem mem_of_get? (m : PendingTable) (k : String) (v : txSyncMsg) (h : m.get? k = some v) :
    (k, v) ∈ m := by
  induction m with
  | nil => simp [get?_nil] at h
  | cons e m ih =>
    rw [get?_cons] at h
    by_cases hk : e.1 = k
    · rw [if_pos hk] at h
      have hv : e.2 = v := Option.some.inj h
      have : e = (k, v) := Prod.ext hk hv
      simp [this]
    · rw [if_neg hk] at h
      exact List.mem_cons_of_mem _ (ih h)

theorem PendingTable.WF.get?_of_mem {m : PendingTable} (hw : m.WF) {e : String × txSyncMsg} (he : e ∈ m) :
    m.get? e.1 = some e.2 := by
  induction m with
  | nil => simp at he
  | cons x m ih =>
    rw [get?_cons]
    rcases List.mem_cons.1 he with rfl | hmem
    · simp
    · have hnd : (List.map Prod.fst (x :: m)).Nodup := hw.1
      rw [List.map_cons, List.nodup_cons] at hnd
      have hne : x.1 ≠ e.1 := by
        intro hx
        exact hnd.1 (hx ▸ List.mem_map_of_mem Prod.fst hmem)
      rw [if_neg hne]
      exact ih ⟨hnd.2, fun y hy => hw.2 y (List.mem_cons_of_mem _ hy)⟩ hmem

theorem PendingTable.WF.peerID_of_get? {m : PendingTable} (hw : m.WF) {k : String} {v : txSyncMsg}
    (h : m.get? k = some v) : v.peerID = k :=
  hw.2 (k, v) (mem_of_get? m k v h)

theorem WF_nil : PendingTable.WF [] := ⟨by simp, by simp⟩

theorem PendingTable.WF.delete {m : PendingTable} (hw : m.WF) (k : String) : (m.delete k).WF := by
  refine ⟨?_, fun e he => hw.2 e (List.mem_of_mem_filter he)⟩
  exact hw.1.sublist ((List.filter_sublist m).map Prod.fst)

theorem map_fst_map_key (m : PendingTable) (k : String) (v : txSyncMsg) :
    (m.map (fun e => if e.1 == k then (k, v) else e)).map Prod.fst = m.map Prod.fst := by
  rw [List.map_map]
  apply List.map_congr_left
  intro e _
  by_cases h : e.1 = k <;> simp [h]

theorem PendingTable.WF.set {m : PendingTable} (hw : m.WF) (k : String) (v : txSyncMsg)
    (hv : v.peerID = k) : (m.set k v).WF := by
  unfold PendingTable.set
  split
  · refine ⟨by rw [map_fst_map_key]; exact hw.1, ?_⟩
    intro e he
    rcases List.mem_map.1 he with ⟨x, hx, rfl⟩
    by_cases h : x.1 = k
    · simp [h, hv]
    · simpa [h] using hw.2 x hx
  · rename_i h
    have hn : m.get? k = none := by
      by_contra hc
      exact h ((any_key_iff m k).2 hc)
    rw [get?_eq_none_iff] at hn
    refine ⟨?_, ?_⟩
    · rw [List.map_append, List.nodup_append]
      refine ⟨hw.1, by simp, ?_⟩
      intro a ha hb
      rcases List.mem_map.1 ha with ⟨x, hx, rfl⟩
      simp at hb
      exact hn x hx hb
    · intro e he
      rcases List.mem_append.1 he with h1 | h1
      · exact hw.2 e h1
      · simp at h1
        subst h1
        exact hv

theorem PendingTable.WF.truncate {m : PendingTable} (hw : m.WF) (msg : txSyncMsg) (rest : List Tx) :
    (m.truncate msg rest).WF := by
  unfold PendingTable.truncate
  refine ⟨?_, ?_⟩
  · have : (m.map (fun e => if e.1 == msg.peerID ∧ e.2 = msg
        then (e.1, { msg with txs := rest }) else e)).map Prod.fst = m.map Prod.fst := by
      rw [List.map_map]
      apply List.map_congr_left
      intro e _
      simp only [Function.comp]
      split <;> rfl
    rw [this]; exact hw.1
  · intro e he
    rcases List.mem_map.1 he with ⟨x, hx, rfl⟩
    split
    · rename_i h
      have h1 : x.1 = msg.peerID := by simpa using h.1
      exact h1.symm
    · exact hw.2 x hx

theorem pickLoop_mem (order : List (String × txSyncMsg)) :
    ∀ (n : Int) (s : txSyncMsg), pickLoop order n = some s → ∃ e ∈ order, e.2 = s := by
  induction order with
  | nil => intro n s h; simp [pickLoop] at h
  | cons e rest ih =>
    intro n s h
    unfold pickLoop at h
    split at h
    · exact ⟨e, by simp, Option.some.inj h⟩
    · obtain ⟨x, hx, hxs⟩ := ih _ _ h
      exact ⟨x, List.mem_cons_of_mem _ hx, hxs⟩

theorem pick_mem (pending : PendingTable) (order : List (String × txSyncMsg)) (r : Nat)
    (s : txSyncMsg) (h : pick pending order r = some s) : ∃ e ∈ order, e.2 = s := by
  unfold pick at h
  split at h
  · exact absurd h (by simp)
  · exact pickLoop_mem order _ s h

/-- What `pick` returns is the message the map holds under its `peerID`. -/
theorem pick_get? (pending : PendingTable) (hw : pending.WF)
    (order : List (String × txSyncMsg)) (hp : order.Perm pending) (r : Nat) (s : txSyncMsg)
    (h : pick pending order r = some s) : pending.get? s.peerID = some s := by
  obtain ⟨e, he, rfl⟩ := pick_mem pending order r s h
  have hmem : e ∈ pending := hp.mem_iff.1 he
  have := hw.get?_of_mem hmem
  rwa [← hw.2 e hmem] at this

/-! ## The closure `send` on the entry of the map -/

theorem send_resolved (peers : List String) (st : LoopState) (msg : txSyncMsg)
    (hp : msg.peerID ∈ peers) :
    send peers st msg
      = { st with
          pending :=
            if msg.txs.length = (sendTxs msg.txs).length then st.pending.delete msg.peerID
            else st.pending.truncate msg (msg.txs.drop (sendTxs msg.txs).length),
          sending := true,
          launched := st.launched ++ [(msg.peerID, sendTxs msg.txs)] } := by
  simp [send, hp]

theorem send_unresolved (peers : List String) (st : LoopState) (msg : txSyncMsg)
    (hp : msg.peerID ∉ peers) :
    send peers st msg = { st with pending := st.pending.delete msg.peerID } := by
  simp [send, hp]

theorem sendTxs_eq_self_iff (txs : List Tx) :
    sendTxs txs = txs ↔ txs.length = (sendTxs txs).length := by
  constructor
  · intro h; rw [h]
  · intro h
    have h1 := sendTxs_append_drop txs
    rw [← h, List.drop_length, List.append_nil] at h1
    exact h1

theorem send_get?_other (peers : List String) (st : LoopState) (msg : txSyncMsg) (k : String)
    (hk : k ≠ msg.peerID) : (send peers st msg).pending.get? k = st.pending.get? k := by
  unfold send
  split
  · dsimp only
    split
    · exact get?_delete_ne _ _ _ hk
    · exact get?_truncate_ne _ _ _ _ hk
  · exact get?_delete_ne _ _ _ hk

theorem send_get?_self (peers : List String) (st : LoopState) (msg : txSyncMsg)
    (hp : msg.peerID ∈ peers) (hget : st.pending.get? msg.peerID = some msg) :
    (send peers st msg).pending.get? msg.peerID
      = if sendTxs msg.txs = msg.txs then none
        else some { msg with txs := msg.txs.drop (sendTxs msg.txs).length } := by
  rw [send_resolved peers st msg hp]
  dsimp only
  by_cases h : msg.txs.length = (sendTxs msg.txs).length
  · rw [if_pos h, if_pos ((sendTxs_eq_self_iff _).2 h)]
    exact get?_delete_self _ _
  · rw [if_neg h, if_neg (fun hc => h ((sendTxs_eq_self_iff _).1 hc))]
    exact get?_truncate_self _ _ _ hget

theorem serve_of_none (peers : List String) (p : String) (st : LoopState)
    (h : st.pending.get? p = none) : serve peers p st = st := by
  simp [serve, h]

theorem serve_iterate_of_none (peers : List String) (p : String) (n : Nat) :
    ∀ st : LoopState, st.pending.get? p = none → (serve peers p)^[n] st = st := by
  induction n with
  | zero => intro st _; rfl
  | succ n ih =>
    intro st h
    rw [Function.iterate_succ_apply, serve_of_none peers p st h]
    exact ih st h

/-- Serving an entry as many times as it has transactions empties it. -/
theorem serve_iterate_exhausts (peers : List String) (n : Nat) :
    ∀ (st : LoopState) (msg : txSyncMsg), msg.peerID ∈ peers →
      st.pending.get? msg.peerID = some msg → msg.txs ≠ [] → msg.txs.length ≤ n →
      ((serve peers msg.peerID)^[n] st).pending.get? msg.peerID = none := by
  induction n with
  | zero =>
    intro st msg _ _ hne hlen
    exact absurd (List.length_eq_zero.1 (Nat.le_zero.1 hlen)) hne
  | succ n ih =>
    intro st msg hp hget hne hlen
    rw [Function.iterate_succ_apply]
    have hs : serve peers msg.peerID st = send peers st msg := by simp [serve, hget]
    rw [hs]
    have hself := send_get?_self peers st msg hp hget
    by_cases hall : sendTxs msg.txs = msg.txs
    · rw [if_pos hall] at hself
      rw [serve_iterate_of_none peers msg.peerID n _ hself]
      exact hself
    · rw [if_neg hall] at hself
      have hpos : 0 < (sendTxs msg.txs).length :=
        List.length_pos.2 (sendTxs_ne_nil msg.txs hne)
      have hlt : (sendTxs msg.txs).length < msg.txs.length := by
        have := sendTxs_length_le msg.txs
        have h2 : msg.txs.length ≠ (sendTxs msg.txs).length :=
          fun hc => hall ((sendTxs_eq_self_iff _).2 hc)
        omega
      have hrest : (msg.txs.drop (sendTxs msg.txs).length) ≠ [] := by
        intro hc
        have := congrArg List.length hc
        simp at this
        omega
      have := ih (send peers st msg)
        { msg with txs := msg.txs.drop (sendTxs msg.txs).length } hp hself hrest
        (by simp only [List.length_drop]; omega)
      exact this

/-- Serving an entry as many times as it has transactions hands all of them
to goroutines, in order, in at most that many non-empty packs, all for the
peer of the entry, and leaves no entry. -/
theorem serve_iterate_dispatches (peers : List String) (n : Nat) :
    ∀ (st : LoopState) (msg : txSyncMsg), msg.peerID ∈ peers →
      st.pending.get? msg.peerID = some msg → msg.txs ≠ [] → msg.txs.length ≤ n →
      ∃ sent : List (String × List Tx),
        ((serve peers msg.peerID)^[n] st).launched = st.launched ++ sent ∧
        sent.length ≤ msg.txs.length ∧
        (∀ x ∈ sent, x.1 = msg.peerID ∧ x.2 ≠ []) ∧
        (sent.map Prod.snd).flatten = msg.txs := by
  induction n with
  | zero =>
    intro st msg _ _ hne hlen
    exact absurd (List.length_eq_zero.1 (Nat.le_zero.1 hlen)) hne
  | succ n ih =>
    intro st msg hp hget hne hlen
    rw [Function.iterate_succ_apply]
    have hs : serve peers msg.peerID st = send peers st msg := by simp [serve, hget]
    rw [hs]
    have hself := send_get?_self peers st msg hp hget
    have hl : (send peers st msg).launched = st.launched ++ [(msg.peerID, sendTxs msg.txs)] := by
      simp [send, hp]
    have hnn := sendTxs_ne_nil msg.txs hne
    have hpos : 0 < (sendTxs msg.txs).length := List.length_pos.2 hnn
    have hlen0 : 0 < msg.txs.length := List.length_pos.2 hne
    by_cases hall : sendTxs msg.txs = msg.txs
    · rw [if_pos hall] at hself
      rw [serve_iterate_of_none peers msg.peerID n _ hself]
      refine ⟨[(msg.peerID, sendTxs msg.txs)], hl, by simpa using hlen0, ?_, by simp [hall]⟩
      intro x hx
      simp only [List.mem_singleton] at hx
      subst hx
      exact ⟨rfl, hnn⟩
    · rw [if_neg hall] at hself
      have hlt : (sendTxs msg.txs).length < msg.txs.length := by
        have := sendTxs_length_le msg.txs
        have h2 : msg.txs.length ≠ (sendTxs msg.txs).length :=
          fun hc => hall ((sendTxs_eq_self_iff _).2 hc)
        omega
      have hrest : (msg.txs.drop (sendTxs msg.txs).length) ≠ [] := by
        intro hc
        have := congrArg List.length hc
        simp at this
        omega
      obtain ⟨sent, hsl, hslen, hsall, hsflat⟩ := ih (send peers st msg)
        { msg with txs := msg.txs.drop (sendTxs msg.txs).length } hp hself hrest
        (by simp only [List.length_drop]; omega)
      refine ⟨(msg.peerID, sendTxs msg.txs) :: sent, ?_, ?_, ?_, ?_⟩
      · rw [hsl, hl]
        simp
      · simp only [List.length_drop] at hslen
        simp only [List.length_cons]
        omega
      · intro x hx
        rcases List.mem_cons.1 hx with rfl | hx
        · exact ⟨rfl, hnn⟩
        · exact hsall x hx
      · simp only [List.map_cons, List.flatten_cons, hsflat]
        exact sendTxs_append_drop msg.txs

theorem run_nil (st : LoopState) : run st [] = st := rfl

theorem run_cons (st : LoopState) (e : Event) (es : List Event) :
    run st (e :: es) = run (handle st e) es := rfl

theorem run_append (st : LoopState) (es₁ es₂ : List Event) :
    run st (es₁ ++ es₂) = run (run st es₁) es₂ := by
  simp [run, List.foldl_append]

theorem handle_sync_busy (st : LoopState) (m : txSyncMsg) (peers : List String)
    (hs : st.sending = true) :
    handle st (.sync m peers) = { st with pending := st.pending.set m.peerID m } := by
  simp [handle, hs]

theorem handle_sync_idle (st : LoopState) (m : txSyncMsg) (peers : List String)
    (hs : st.sending = false) :
    handle st (.sync m peers)
      = send peers { st with pending := st.pending.set m.peerID m } m := by
  simp [handle, hs]

/-- What a step adds to the record of goroutines: nothing, or one pack for a
peer the registry resolves. -/
theorem handle_launched (st : LoopState) (e : Event) :
    (handle st e).launched = st.launched ∨
      ∃ s : txSyncMsg, s.peerID ∈ e.peers ∧
        (handle st e).launched = st.launched ++ [(s.peerID, sendTxs s.txs)] := by
  have hsend : ∀ (peers : List String) (st1 : LoopState) (s : txSyncMsg),
      (send peers st1 s).launched = st1.launched ∨
        (s.peerID ∈ peers ∧
          (send peers st1 s).launched = st1.launched ++ [(s.peerID, sendTxs s.txs)]) := by
    intro peers st1 s
    by_cases hp : s.peerID ∈ peers
    · right; exact ⟨hp, by simp [send, hp]⟩
    · left; simp [send, hp]
  cases e with
  | sync m peers =>
    cases hs : st.sending with
    | true => left; rw [handle_sync_busy st m peers hs]
    | false =>
      rw [handle_sync_idle st m peers hs]
      rcases hsend peers { st with pending := st.pending.set m.peerID m } m with h | h
      · left; exact h
      · right; exact ⟨m, h.1, h.2⟩
  | done err peers order r =>
    simp only [handle]
    cases err <;> dsimp only <;> split
    all_goals first
      | (rename_i s _
         rcases hsend peers _ s with h | h
         · left; exact h
         · right; exact ⟨s, h.1, h.2⟩)
      | (left; rfl)

/-- While a pack is underway, requests of other peers leave the entry of `p`
and the record of goroutines as they are. -/
theorem run_syncs_busy (p : String) (es : List Event) :
    ∀ st : LoopState, st.sending = true →
      (∀ e ∈ es, ∃ m peers, e = Event.sync m peers ∧ m.peerID ≠ p) →
      (run st es).pending.get? p = st.pending.get? p ∧
        (run st es).launched = st.launched ∧ (run st es).sending = true := by
  induction es with
  | nil => intro st hs _; exact ⟨rfl, rfl, hs⟩
  | cons e es ih =>
    intro st hs hall
    obtain ⟨m, peers, rfl, hm⟩ := hall e (by simp)
    rw [run_cons, handle_sync_busy st m peers hs]
    have := ih { st with pending := st.pending.set m.peerID m } hs
      (fun e he => hall e (List.mem_cons_of_mem _ he))
    refine ⟨?_, this.2.1, this.2.2⟩
    rw [this.1]
    exact get?_set_ne _ _ _ _ (Ne.symm hm)

/-! ## Invariants of the loop -/

theorem send_WF (peers : List String) (st : LoopState) (s : txSyncMsg)
    (hw : st.pending.WF) : (send peers st s).pending.WF := by
  unfold send
  split
  · dsimp only
    split
    · exact hw.delete _
    · exact hw.truncate _ _
  · exact hw.delete _

theorem handle_WF (st : LoopState) (e : Event) (hw : st.pending.WF) :
    (handle st e).pending.WF := by
  cases e with
  | sync m peers =>
    have h1 : (st.pending.set m.peerID m).WF := hw.set _ _ rfl
    simp only [handle]
    split
    · exact send_WF _ _ _ h1
    · exact h1
  | done err peers order r =>
    simp only [handle]
    cases err <;> dsimp only <;> split
    all_goals first
      | exact send_WF _ _ _ hw
      | exact hw

theorem reachable_WF {st : LoopState} (h : Reachable st) : st.pending.WF := by
  induction h with
  | init => exact WF_nil
  | step e _ _ ih => exact handle_WF _ e ih

/-- The count kept by `sending`, for a state and after `send` on it. -/
theorem send_count (peers : List String) (st : LoopState) (s : txSyncMsg)
    (hs : st.sending = false) (hc : st.launched.length = st.received) :
    (send peers st s).launched.length
      = (send peers st s).received + (if (send peers st s).sending then 1 else 0) := by
  by_cases hp : s.peerID ∈ peers
  · simp [send, hp, hc]
  · simp [send, hp, hc, hs]

theorem handle_done (st : LoopState) (err : Option String) (peers : List String)
    (order : List (String × txSyncMsg)) (r : Nat) :
    handle st (.done err peers order r)
      = match pick st.pending order r with
        | some s => send peers (st.tookDone err) s
        | none => st.tookDone err := by
  cases err <;> rfl

theorem handle_done_cases (st : LoopState) (err : Option String) (peers : List String)
    (order : List (String × txSyncMsg)) (r : Nat) :
    (pick st.pending order r = none ∧
        handle st (.done err peers order r) = st.tookDone err) ∨
      ∃ s, pick st.pending order r = some s ∧
        handle st (.done err peers order r) = send peers (st.tookDone err) s := by
  rw [handle_done]
  cases hpk : pick st.pending order r with
  | none => left; exact ⟨rfl, rfl⟩
  | some s => right; exact ⟨s, rfl, rfl⟩

theorem reachable_count {st : LoopState} (h : Reachable st) :
    st.launched.length = st.received + (if st.sending then 1 else 0) := by
  induction h with
  | init => rfl
  | @step st e _ hen ih =>
    cases e with
    | sync m peers =>
      cases hs : st.sending with
      | true =>
        rw [handle_sync_busy st m peers hs]
        simpa [hs] using ih
      | false =>
        rw [handle_sync_idle st m peers hs]
        apply send_count
        · exact hs
        · simpa [hs] using ih
    | done err peers order r =>
      have hlt : st.received < st.launched.length := hen.1
      have hst : st.sending = true := by
        cases hs : st.sending with
        | true => rfl
        | false => rw [hs] at ih; simp at ih; omega
      rw [hst] at ih
      have hc : (st.tookDone err).launched.length = (st.tookDone err).received := by
        simpa [LoopState.tookDone] using ih
      rcases handle_done_cases st err peers order r with ⟨_, h⟩ | ⟨s, _, h⟩
      · rw [h]
        simpa [LoopState.tookDone] using ih
      · rw [h]
        exact send_count peers _ s rfl hc

/-! ## The packs of one request -/

theorem sentTo_append (p : String) (a b : List (String × List Tx)) :
    sentTo p (a ++ b) = sentTo p a ++ sentTo p b := by
  simp [sentTo, List.filter_append]

theorem sentTo_single_self (p : String) (pack : List Tx) : sentTo p [(p, pack)] = pack := by
  simp [sentTo]

theorem sentTo_single_ne (p q : String) (pack : List Tx) (h : q ≠ p) :
    sentTo p [(q, pack)] = [] := by
  simp [sentTo, List.filter_cons, h]

theorem remaining_congr (st st1 : LoopState) (p : String)
    (h : st1.pending.get? p = st.pending.get? p) : st1.remaining p = st.remaining p := by
  unfold LoopState.remaining
  rw [h]

theorem servedInv_send (p : String) (B : List Tx) (base : List (String × List Tx))
    (peers : List String) (st : LoopState) (s : txSyncMsg)
    (hget : st.pending.get? s.peerID = some s) (hres : s.peerID = p → p ∈ peers)
    (hinv : servedInv p B base st) : servedInv p B base (send peers st s) := by
  obtain ⟨hw, sent, hl, hb⟩ := hinv
  refine ⟨send_WF peers st s hw, ?_⟩
  by_cases hp : s.peerID ∈ peers
  · have hlaunch : (send peers st s).launched
        = base ++ (sent ++ [(s.peerID, sendTxs s.txs)]) := by
      simp [send, hp, hl]
    refine ⟨sent ++ [(s.peerID, sendTxs s.txs)], hlaunch, ?_⟩
    by_cases hk : s.peerID = p
    · subst hk
      have hrem : st.remaining s.peerID = s.txs := by simp [LoopState.remaining, hget]
      rw [sentTo_append, sentTo_single_self, ← hb, hrem]
      unfold LoopState.remaining
      rw [send_get?_self peers st s hp hget]
      by_cases hall : sendTxs s.txs = s.txs
      · simp [hall]
      · simp only [if_neg hall, List.append_assoc]
        rw [sendTxs_append_drop]
    · rw [sentTo_append, sentTo_single_ne p s.peerID _ hk, List.append_nil,
        remaining_congr st _ p (send_get?_other peers st s p (Ne.symm hk))]
      exact hb
  · have hk : s.peerID ≠ p := fun h => hp (h ▸ hres h)
    refine ⟨sent, by simp [send, hp, hl], ?_⟩
    rw [remaining_congr st _ p (send_get?_other peers st s p (Ne.symm hk))]
    exact hb

theorem servedInv_handle (p : String) (B : List Tx) (base : List (String × List Tx))
    (st : LoopState) (e : Event) (hen : e.enabled st) (hres : p ∈ e.peers)
    (hnew : ¬ e.isSyncOf p) (hinv : servedInv p B base st) :
    servedInv p B base (handle st e) := by
  cases e with
  | sync m peers =>
    have hm : m.peerID ≠ p := hnew
    have h1 : servedInv p B base { st with pending := st.pending.set m.peerID m } := by
      obtain ⟨hw, sent, hl, hb⟩ := hinv
      refine ⟨hw.set _ _ rfl, sent, hl, ?_⟩
      rw [remaining_congr st _ p (get?_set_ne _ _ _ _ (Ne.symm hm))]
      exact hb
    cases hs : st.sending with
    | true => rw [handle_sync_busy st m peers hs]; exact h1
    | false =>
      rw [handle_sync_idle st m peers hs]
      exact servedInv_send p B base peers _ m (get?_set_self _ _ _) (fun _ => hres) h1
  | done err peers order r =>
    have h1 : servedInv p B base (st.tookDone err) := hinv
    rcases handle_done_cases st err peers order r with ⟨_, h⟩ | ⟨s, hpk, h⟩
    · rw [h]; exact h1
    · rw [h]
      have hg : st.pending.get? s.peerID = some s :=
        pick_get? st.pending hinv.1 order hen.2.1 r s hpk
      exact servedInv_send p B base peers _ s hg (fun _ => hres) h1

theorem servedInv_run (p : String) (B : List Tx) (base : List (String × List Tx))
    (es : List Event) :
    ∀ st : LoopState, runnable st es → (∀ e ∈ es, p ∈ e.peers) →
      (∀ e ∈ es, ¬ e.isSyncOf p) → servedInv p B base st → servedInv p B base (run st es) := by
  induction es with
  | nil => intro st _ _ _ h; exact h
  | cons e es ih =>
    intro st hrun hres hnew hinv
    rw [run_cons]
    exact ih (handle st e) hrun.2 (fun x hx => hres x (List.mem_cons_of_mem _ hx))
      (fun x hx => hnew x (List.mem_cons_of_mem _ hx))
      (servedInv_handle p B base st e hrun.1 (hres e (by simp)) (hnew e (by simp)) hinv)

/-- A new request of a resolvable peer opens its bookkeeping. -/
theorem servedInv_sync (st : LoopState) (hw : st.pending.WF) (m : txSyncMsg)
    (peers : List String) (hp : m.peerID ∈ peers) :
    servedInv m.peerID m.txs st.launched (handle st (.sync m peers)) := by
  have h1 : servedInv m.peerID m.txs st.launched
      { st with pending := st.pending.set m.peerID m } := by
    refine ⟨hw.set _ _ rfl, [], by simp, ?_⟩
    simp [sentTo, LoopState.remaining, get?_set_self]
  cases hs : st.sending with
  | true => rw [handle_sync_busy st m peers hs]; exact h1
  | false =>
    rw [handle_sync_idle st m peers hs]
    exact servedInv_send _ _ _ peers _ m (get?_set_self _ _ _) (fun _ => hp) h1

/-! ## The closure `pick` as an index into the iteration order -/

theorem pickLoop_eq (order : List (String × txSyncMsg)) :
    ∀ r : Nat, pickLoop order ((r : Int) + 1) = (order[r]?).map Prod.snd := by
  induction order with
  | nil => intro r; simp [pickLoop]
  | cons e rest ih =>
    intro r
    unfold pickLoop
    cases r with
    | zero => simp
    | succ k =>
      have hne : ¬ (((k + 1 : Nat) : Int) + 1 - 1 = 0) := by omega
      rw [if_neg hne]
      have hcast : ((k + 1 : Nat) : Int) + 1 - 1 = (k : Int) + 1 := by omega
      rw [hcast, ih k]
      simp

theorem pick_eq (pending : PendingTable) (order : List (String × txSyncMsg)) (r : Nat)
    (hne : pending ≠ []) : pick pending order r = (order[r]?).map Prod.snd := by
  unfold pick
  have : ¬ pending.length = 0 := fun h => hne (List.length_eq_zero.1 h)
  rw [if_neg this, pickLoop_eq]

theorem pick_nil (order : List (String × txSyncMsg)) (r : Nat) : pick [] order r = none := by
  simp [pick]

/-- Below the number of entries, `pick` returns the entry at that place of
the iteration order. -/
theorem pick_lt (pending : PendingTable) (order : List (String × txSyncMsg))
    (hp : order.Perm pending) (r : Nat) (hr : r < pending.length) :
    ∃ e ∈ pending, order[r]? = some e ∧ pick pending order r = some e.2 := by
  have hne : pending ≠ [] := by
    intro h; rw [h] at hr; simp at hr
  have hlen : r < order.length := by rw [hp.length_eq]; exact hr
  refine ⟨order[r], hp.mem_iff.1 (List.getElem_mem hlen), List.getElem?_eq_getElem hlen, ?_⟩
  rw [pick_eq pending order r hne, List.getElem?_eq_getElem hlen]
  rfl

theorem PendingTable.WF.snd_injective {m : PendingTable} (hw : m.WF)
    {a b : String × txSyncMsg} (ha : a ∈ m) (hb : b ∈ m) (h : a.2 = b.2) : a = b := by
  have h1 := hw.2 a ha
  have h2 := hw.2 b hb
  exact Prod.ext (by rw [← h1, ← h2, h]) h

theorem PendingTable.WF.nodup {m : PendingTable} (hw : m.WF) : m.Nodup :=
  List.Nodup.of_map Prod.fst hw.1

/-! ## The `done` case and the error it carries -/

theorem send_warned (peers : List String) (st : LoopState) (s : txSyncMsg) :
    (send peers st s).warned = st.warned ∧ (send peers st s).received = st.received := by
  unfold send
  split <;> exact ⟨rfl, rfl⟩

/-- The closure `send` reads the map and the record of goroutines only. -/
theorem send_congr (peers : List String) (st1 st2 : LoopState) (s : txSyncMsg)
    (hp : st1.pending = st2.pending) (hl : st1.launched = st2.launched)
    (hs : st1.sending = st2.sending) :
    (send peers st1 s).pending = (send peers st2 s).pending ∧
      (send peers st1 s).sending = (send peers st2 s).sending ∧
      (send peers st1 s).launched = (send peers st2 s).launched := by
  obtain ⟨p1, s1, l1, r1, w1⟩ := st1
  obtain ⟨p2, s2, l2, r2, w2⟩ := st2
  simp only at hp hl hs
  subst hp hl hs
  unfold send
  split <;> exact ⟨rfl, rfl, rfl⟩

theorem handle_done_warned (st : LoopState) (err : Option String) (peers : List String)
    (order : List (String × txSyncMsg)) (r : Nat) :
    (handle st (.done err peers order r)).warned = st.warned ++ err.toList ∧
      (handle st (.done err peers order r)).received = st.received + 1 := by
  have ht : (st.tookDone err).warned = st.warned ++ err.toList := by
    cases err <;> simp [LoopState.tookDone]
  rcases handle_done_cases st err peers order r with ⟨_, h⟩ | ⟨s, _, h⟩
  · rw [h]; exact ⟨ht, rfl⟩
  · rw [h, (send_warned peers _ s).1, (send_warned peers _ s).2]; exact ⟨ht, rfl⟩

theorem handle_done_err_irrelevant (st : LoopState) (err : Option String)
    (peers : List String) (order : List (String × txSyncMsg)) (r : Nat) :
    (handle st (.done err peers order r)).pending
        = (handle st (.done none peers order r)).pending ∧
      (handle st (.done err peers order r)).sending
        = (handle st (.done none peers order r)).sending ∧
      (handle st (.done err peers order r)).launched
        = (handle st (.done none peers order r)).launched := by
  rw [handle_done, handle_done]
  cases pick st.pending order r with
  | none => exact ⟨rfl, rfl, rfl⟩
  | some s => exact send_congr peers _ _ s rfl rfl rfl

/-! ## A new request for a peer that has an entry -/

theorem filter_key_length_le_one (m : PendingTable) (k : String)
    (hnd : (m.map Prod.fst).Nodup) : (m.filter (fun e => e.1 == k)).length ≤ 1 := by
  induction m with
  | nil => simp
  | cons e m ih =>
    rw [List.map_cons, List.nodup_cons] at hnd
    by_cases h : e.1 = k
    · have hnone : ∀ x ∈ m, ¬ ((x.1 == k) = true) := by
        intro x hx hxk
        have hxk2 : x.1 = k := by simpa using hxk
        exact hnd.1 (by rw [h, ← hxk2]; exact List.mem_map_of_mem Prod.fst hx)
      have hfil : m.filter (fun e => e.1 == k) = [] := List.filter_eq_nil_iff.2 hnone
      simp [List.filter_cons, h, hfil]
    · have := ih hnd.2
      simpa [List.filter_cons, h] using this

/-- The entry of the requesting peer after its request is handled, in terms
of the request alone. -/
theorem handle_sync_get?_self (st : LoopState) (m : txSyncMsg) (peers : List String) :
    (handle st (.sync m peers)).pending.get? m.peerID
      = if st.sending = true then some m
        else if m.peerID ∈ peers then
          (if sendTxs m.txs = m.txs then none
           else some { m with txs := m.txs.drop (sendTxs m.txs).length })
        else none := by
  cases hs : st.sending with
  | true =>
    rw [handle_sync_busy st m peers hs, if_pos rfl]
    exact get?_set_self _ _ _
  | false =>
    rw [handle_sync_idle st m peers hs, if_neg (by simp)]
    by_cases hp : m.peerID ∈ peers
    · rw [if_pos hp]
      exact send_get?_self peers _ m hp (get?_set_self _ _ _)
    · rw [if_neg hp, send_unresolved peers _ m hp]
      exact get?_delete_self _ _

/-! ## `syncTransactions` -/

theorem take_succ_set (l : List Tx) :
    ∀ (i : Nat) (x : Tx), i < l.length → (l.set i x).take (i + 1) = l.take i ++ [x] := by
  induction l with
  | nil => intro i x h; simp at h
  | cons a l ih =>
    intro i x h
    cases i with
    | zero => simp
    | succ k =>
      have hk : k < l.length := by simpa using h
      simp [List.set, ih k x hk]

theorem fillTxs_eq (todo : List TxDesc) :
    ∀ (i : Nat) (txs : List Tx), txs.length = i + todo.length →
      fillTxs todo i txs = txs.take i ++ todo.map TxDesc.Tx := by
  induction todo with
  | nil =>
    intro i txs h
    simp only [List.length_nil, Nat.add_zero] at h
    simp [fillTxs, ← h]
  | cons batch todo ih =>
    intro i txs h
    simp only [List.length_cons] at h
    unfold fillTxs
    rw [ih (i + 1) (txs.set i batch.Tx) (by simp; omega),
      take_succ_set txs i batch.Tx (by omega)]
    simp

theorem fillTxs_replicate (pending : List TxDesc) :
    fillTxs pending 0 (List.replicate pending.length nilTx)
      = pending.map TxDesc.Tx := by
  rw [fillTxs_eq pending 0 _ (by simp)]
  simp

/-! ## `txBroadcastLoop` -/

theorem txBroadcastLoop_newTx_ok (tx : Tx) (es : List RelayEvent) (st : RelayState) :
    txBroadcastLoop (.newTx tx none :: es) st
      = txBroadcastLoop es { st with broadcast := st.broadcast ++ [tx] } := rfl

theorem txBroadcastLoop_newTx_err (tx : Tx) (e : String) (es : List RelayEvent)
    (st : RelayState) :
    txBroadcastLoop (.newTx tx (some e) :: es) st
      = txBroadcastLoop es
          { st with broadcast := st.broadcast ++ [tx], logged := st.logged ++ [e] } := rfl

theorem txBroadcastLoop_newTxs (txs : List (Tx × Option String)) :
    ∀ (rest : List RelayEvent) (st : RelayState),
      txBroadcastLoop (txs.map (fun p => RelayEvent.newTx p.1 p.2) ++ rest) st
        = txBroadcastLoop rest
            { st with broadcast := st.broadcast ++ txs.map Prod.fst,
                      logged := st.logged ++ txs.filterMap Prod.snd } := by
  induction txs with
  | nil => intro rest st; simp
  | cons p txs ih =>
    intro rest st
    obtain ⟨tx, err⟩ := p
    cases err with
    | none =>
      rw [List.map_cons, List.cons_append, txBroadcastLoop_newTx_ok, ih]
      simp [List.filterMap_cons]
    | some e =>
      rw [List.map_cons, List.cons_append, txBroadcastLoop_newTx_err, ih]
      simp [List.filterMap_cons]

/-! ## Entries without transactions -/

theorem noEmpty_delete (m : PendingTable) (k : String) (h : m.noEmpty) :
    (m.delete k).noEmpty :=
  fun e he => h e (List.mem_of_mem_filter he)

theorem noEmpty_set (m : PendingTable) (k : String) (v : txSyncMsg) (h : m.noEmpty)
    (hv : v.txs ≠ []) : (m.set k v).noEmpty := by
  unfold PendingTable.set
  split
  · intro e he
    rcases List.mem_map.1 he with ⟨x, hx, rfl⟩
    by_cases hk : x.1 = k
    · simpa [hk] using hv
    · simpa [hk] using h x hx
  · intro e he
    rcases List.mem_append.1 he with h1 | h1
    · exact h e h1
    · simp at h1
      subst h1
      exact hv

theorem noEmpty_truncate (m : PendingTable) (msg : txSyncMsg) (rest : List Tx)
    (h : m.noEmpty) (hr : rest ≠ []) : (m.truncate msg rest).noEmpty := by
  intro e he
  rcases List.mem_map.1 he with ⟨x, hx, rfl⟩
  split
  · exact hr
  · exact h x hx

theorem send_noEmpty (peers : List String) (st : LoopState) (s : txSyncMsg)
    (h : st.pending.noEmpty) : (send peers st s).pending.noEmpty := by
  unfold send
  split
  · dsimp only
    split
    · exact noEmpty_delete _ _ h
    · rename_i hlen
      apply noEmpty_truncate _ _ _ h
      intro hc
      have h1 := congrArg List.length hc
      have h2 := sendTxs_length_le s.txs
      simp only [List.length_drop, List.length_nil] at h1
      omega
  · exact noEmpty_delete _ _ h

theorem handle_noEmpty (st : LoopState) (e : Event) (hc : e.carriesTxs)
    (h : st.pending.noEmpty) : (handle st e).pending.noEmpty := by
  cases e with
  | sync m peers =>
    have h1 : (st.pending.set m.peerID m).noEmpty := noEmpty_set _ _ _ h hc
    cases hs : st.sending with
    | true => rw [handle_sync_busy st m peers hs]; exact h1
    | false => rw [handle_sync_idle st m peers hs]; exact send_noEmpty _ _ _ h1
  | done err peers order r =>
    rcases handle_done_cases st err peers order r with ⟨_, hh⟩ | ⟨s, _, hh⟩
    · rw [hh]; exact h
    · rw [hh]; exact send_noEmpty _ _ _ h

theorem run_noEmpty (es : List Event) :
    ∀ st : LoopState, (∀ e ∈ es, e.carriesTxs) → st.pending.noEmpty →
      (run st es).pending.noEmpty := by
  induction es with
  | nil => intro st _ h; exact h
  | cons e es ih =>
    intro st hc h
    rw [run_cons]
    exact ih _ (fun x hx => hc x (List.mem_cons_of_mem _ hx))
      (handle_noEmpty st e (hc e (by simp)) h)

/-! ## The size of a pack -/

theorem sendTxs_take_lt (txs : List Tx) (j : Nat) (hj : j < (sendTxs txs).length) :
    wireSum ((sendTxs txs).take j) < txSyncPackSize := by
  rw [sendTxs_eq] at hj ⊢
  have h := packFrom_prefix_lt txs 0 j hj
  rw [packFrom_eq_take txs 0, List.take_take, Nat.min_eq_left (Nat.le_of_lt hj)]
  simpa using h

theorem sendTxs_dropLast_lt (txs : List Tx) :
    wireSum (sendTxs txs).dropLast < txSyncPackSize := by
  rw [List.dropLast_eq_take]
  by_cases h0 : (sendTxs txs).length = 0
  · rw [List.length_eq_zero] at h0
    rw [h0]
    decide
  · exact sendTxs_take_lt txs _ (by omega)

/-! ## Requests of other peers -/

/-- A request of another peer neither changes the entry of `p` nor starts a
goroutine for `p`. -/
theorem handle_sync_other (st : LoopState) (m : txSyncMsg) (peers : List String) (p : String)
    (hm : m.peerID ≠ p) :
    (handle st (.sync m peers)).pending.get? p = st.pending.get? p ∧
      sentTo p (handle st (.sync m peers)).launched = sentTo p st.launched := by
  cases hs : st.sending with
  | true =>
    rw [handle_sync_busy st m peers hs]
    exact ⟨get?_set_ne _ _ _ _ (Ne.symm hm), rfl⟩
  | false =>
    rw [handle_sync_idle st m peers hs]
    refine ⟨?_, ?_⟩
    · rw [send_get?_other peers _ m p (Ne.symm hm)]
      exact get?_set_ne _ _ _ _ (Ne.symm hm)
    · by_cases hp : m.peerID ∈ peers
      · rw [send_resolved peers _ m hp]
        simp only [sentTo_append, sentTo_single_ne p m.peerID _ hm, List.append_nil]
      · rw [send_unresolved peers _ m hp]

theorem run_syncs_other (p : String) (es : List Event) :
    ∀ st : LoopState, (∀ e ∈ es, ∃ m peers, e = Event.sync m peers ∧ m.peerID ≠ p) →
      (run st es).pending.get? p = st.pending.get? p ∧
        sentTo p (run st es).launched = sentTo p st.launched := by
  induction es with
  | nil => intro st _; exact ⟨rfl, rfl⟩
  | cons e es ih =>
    intro st hall
    obtain ⟨m, peers, rfl, hm⟩ := hall e (by simp)
    rw [run_cons]
    have h1 := handle_sync_other st m peers p hm
    have h2 := ih (handle st (.sync m peers)) (fun e he => hall e (List.mem_cons_of_mem _ he))
    exact ⟨h2.1.trans h1.1, h2.2.trans h1.2⟩

/-- With nothing underway no value can be taken from `done`. -/
theorem idle_only_sync {st : LoopState} (h : Reachable st) (hs : st.sending = false)
    (e : Event) (hen : e.enabled st) : ∃ m peers, e = Event.sync m peers := by
  cases e with
  | sync m peers => exact ⟨m, peers, rfl⟩
  | done err peers order r =>
    have hc := reachable_count h
    rw [hs] at hc
    have hlt : st.received < st.launched.length := hen.1
    simp at hc
    omega

/-! ## C1: three transactions of 40 KiB -/

/-- C1, as stated, fails: for the backlog of three transactions of 40960
bytes of the resolvable peer `p1`, `send` does not dispatch the pack
`[tx1, tx2]` and leave `[tx3]` in the map. -/
theorem C1_first_pack_is_not_two :
    ¬ ((send ["p1"] st3 req3).launched = [("p1", [tx40 1, tx40 2])] ∧
        (send ["p1"] st3 req3).pending.get? "p1" = some ⟨"p1", [tx40 3]⟩) := by
  decide

/-- C1, amended: for a request of a resolvable peer with exactly three
transactions of 40960 bytes each, `send` dispatches one pack holding all three
(122880 bytes: the third is added because the total before it, 81920, is
below the target), removes the entry of the peer from the map and sets
`sending`; nothing is left for a second pack. -/
theorem C1_three_of_40KiB_one_pack (peers : List String) (st : LoopState) (p : String)
    (tx1 tx2 tx3 : Tx) (h1 : tx1.wireLen = 40960) (h2 : tx2.wireLen = 40960)
    (h3 : tx3.wireLen = 40960) (hp : p ∈ peers) :
    send peers st ⟨p, [tx1, tx2, tx3]⟩
        = { st with pending := st.pending.delete p, sending := true,
                    launched := st.launched ++ [(p, [tx1, tx2, tx3])] } ∧
      wireSum [tx1, tx2] = 81920 ∧ wireSum [tx1, tx2, tx3] = 122880 ∧
      (send peers st ⟨p, [tx1, tx2, tx3]⟩).remaining p = [] := by
  have hpack : sendTxs [tx1, tx2, tx3] = [tx1, tx2, tx3] := by
    rw [sendTxs_eq]
    simp [packFrom, h1, h2, h3, txSyncPackSize]
  have hsend : send peers st ⟨p, [tx1, tx2, tx3]⟩
        = { st with pending := st.pending.delete p, sending := true,
                    launched := st.launched ++ [(p, [tx1, tx2, tx3])] } := by
    simp [send, hp, hpack]
  refine ⟨hsend, by simp [h1, h2], by simp [h1, h2, h3], ?_⟩
  rw [hsend]
  simp [LoopState.remaining, get?_delete_self]

/-- C1, amended, at the request of `p1` in the state where it was just stored. -/
theorem C1_three_of_40KiB_one_pack_witness :
    send ["p1"] st3 ⟨"p1", [tx40 1, tx40 2, tx40 3]⟩
        = { st3 with pending := st3.pending.delete "p1", sending := true,
                     launched := st3.launched ++ [("p1", [tx40 1, tx40 2, tx40 3])] } ∧
      wireSum [tx40 1, tx40 2] = 81920 ∧ wireSum [tx40 1, tx40 2, tx40 3] = 122880 ∧
      (send ["p1"] st3 ⟨"p1", [tx40 1, tx40 2, tx40 3]⟩).remaining "p1" = [] :=
  C1_three_of_40KiB_one_pack ["p1"] st3 "p1" (tx40 1) (tx40 2) (tx40 3) rfl rfl rfl (by decide)

/-! ## C2: the pack without its last transaction is below the target -/

/-- C2: for a request of a resolvable peer, `send` hands the pack
`sendTxs msg.txs` to the goroutine, and the wire sizes of all transactions of
that pack but the last sum to less than `txSyncPackSize` = 102400; more
generally every proper prefix of the pack is below the target, so the first
transaction that brings the total to the target or above is the last. -/
theorem C2_pack_without_last_below_target (peers : List String) (st : LoopState)
    (msg : txSyncMsg) (hp : msg.peerID ∈ peers) :
    (send peers st msg).launched = st.launched ++ [(msg.peerID, sendTxs msg.txs)] ∧
      txSyncPackSize = 102400 ∧
      wireSum (sendTxs msg.txs).dropLast < txSyncPackSize ∧
      ∀ j, j < (sendTxs msg.txs).length →
        wireSum ((sendTxs msg.txs).take j) < txSyncPackSize := by
  have hprefix : ∀ j, j < (sendTxs msg.txs).length →
      wireSum ((sendTxs msg.txs).take j) < txSyncPackSize := by
    intro j hj
    rw [sendTxs_eq] at hj ⊢
    have h := packFrom_prefix_lt msg.txs 0 j hj
    rw [packFrom_eq_take msg.txs 0, List.take_take, Nat.min_eq_left (Nat.le_of_lt hj)]
    simpa using h
  refine ⟨by simp [send, hp], rfl, ?_, hprefix⟩
  rw [List.dropLast_eq_take]
  by_cases h0 : (sendTxs msg.txs).length = 0
  · rw [List.length_eq_zero] at h0
    rw [h0]
    decide
  · exact hprefix _ (by omega)

/-- C2 at the request of three transactions of 40 KiB. -/
theorem C2_pack_without_last_below_target_witness :
    (send ["p1"] st3 req3).launched = st3.launched ++ [(req3.peerID, sendTxs req3.txs)] ∧
      txSyncPackSize = 102400 ∧
      wireSum (sendTxs req3.txs).dropLast < txSyncPackSize ∧
      ∀ j, j < (sendTxs req3.txs).length →
        wireSum ((sendTxs req3.txs).take j) < txSyncPackSize :=
  C2_pack_without_last_below_target ["p1"] st3 req3 (by decide)

/-! ## C3: nothing duplicated, nothing dropped -/

/-- C3: let a request `m` of a resolvable peer arrive in a reachable state,
and let the loop then handle any sequence of events that can occur, during
which the peer stays resolvable and sends no newer request. At the end (hence
at every point) the packs started for the peer since the request, in the order
of sending, followed by the transactions its entry still holds, are exactly the
transactions of `m`; what the entry holds is a suffix of them; and when the
entry is gone the packs alone are the transactions of `m`. -/
theorem C3_packs_then_rest_is_backlog (st0 : LoopState) (h0 : Reachable st0)
    (m : txSyncMsg) (peers0 : List String) (hp0 : m.peerID ∈ peers0) (es : List Event)
    (hrun : runnable (handle st0 (.sync m peers0)) es)
    (hres : ∀ e ∈ es, m.peerID ∈ e.peers) (hnew : ∀ e ∈ es, ¬ e.isSyncOf m.peerID) :
    ∃ sent, (run (handle st0 (.sync m peers0)) es).launched = st0.launched ++ sent ∧
      sentTo m.peerID sent ++ (run (handle st0 (.sync m peers0)) es).remaining m.peerID
        = m.txs ∧
      (run (handle st0 (.sync m peers0)) es).remaining m.peerID <:+ m.txs ∧
      ((run (handle st0 (.sync m peers0)) es).pending.get? m.peerID = none →
        sentTo m.peerID sent = m.txs) := by
  have hinv := servedInv_run m.peerID m.txs st0.launched es _ hrun hres hnew
    (servedInv_sync st0 (reachable_WF h0) m peers0 hp0)
  obtain ⟨_, sent, hl, hb⟩ := hinv
  refine ⟨sent, hl, hb, ⟨sentTo m.peerID sent, hb⟩, ?_⟩
  intro hnone
  have hr : (run (handle st0 (.sync m peers0)) es).remaining m.peerID = [] := by
    simp [LoopState.remaining, hnone]
  rw [hr, List.append_nil] at hb
  exact hb

/-- C3 at a request of four transactions of 40 KiB arriving in the initial
state, followed by the outcome of its first pack. -/
theorem C3_packs_then_rest_is_backlog_witness :
    ∃ sent,
      (run (handle LoopState.init (.sync req4p1 ["p1"]))
          [.done none ["p1"] [("p1", ⟨"p1", [tx40 4]⟩)] 0]).launched
        = LoopState.init.launched ++ sent ∧
      sentTo "p1" sent ++
          (run (handle LoopState.init (.sync req4p1 ["p1"]))
            [.done none ["p1"] [("p1", ⟨"p1", [tx40 4]⟩)] 0]).remaining "p1"
        = req4p1.txs ∧
      (run (handle LoopState.init (.sync req4p1 ["p1"]))
          [.done none ["p1"] [("p1", ⟨"p1", [tx40 4]⟩)] 0]).remaining "p1"
        <:+ req4p1.txs ∧
      ((run (handle LoopState.init (.sync req4p1 ["p1"]))
          [.done none ["p1"] [("p1", ⟨"p1", [tx40 4]⟩)] 0]).pending.get? "p1" = none →
        sentTo "p1" sent = req4p1.txs) :=
  C3_packs_then_rest_is_backlog LoopState.init Reachable.init req4p1 ["p1"] (by decide)
    [.done none ["p1"] [("p1", ⟨"p1", [tx40 4]⟩)] 0]
    ⟨⟨by decide, by decide, fun _ => by decide⟩, trivial⟩
    (fun e he => by
      have : e = .done none ["p1"] [("p1", ⟨"p1", [tx40 4]⟩)] 0 := by simpa using he
      subst this
      decide)
    (fun e he => by
      have : e = .done none ["p1"] [("p1", ⟨"p1", [tx40 4]⟩)] 0 := by simpa using he
      subst this
      exact fun h => h)

/-! ## C4: at most one goroutine underway -/

/-- C4: in every state the loop reaches from its initial state, the number of
goroutines started whose value was not yet taken from `done` is at most 1,
and it is 1 exactly when `sending` is true (0 otherwise); the loop never took
more values than goroutines were started. -/
theorem C4_at_most_one_in_flight (st : LoopState) (h : Reachable st) :
    st.inFlight ≤ 1 ∧ (st.inFlight = 1 ↔ st.sending = true) ∧
      (st.inFlight = 0 ↔ st.sending = false) ∧ st.received ≤ st.launched.length := by
  have hc := reachable_count h
  unfold LoopState.inFlight
  cases hs : st.sending <;> rw [hs] at hc <;> simp at hc <;> simp <;> omega

/-- C4 in the state after the first request. -/
theorem C4_at_most_one_in_flight_witness :
    (handle LoopState.init (.sync req3 ["p1"])).inFlight ≤ 1 ∧
      ((handle LoopState.init (.sync req3 ["p1"])).inFlight = 1
        ↔ (handle LoopState.init (.sync req3 ["p1"])).sending = true) ∧
      ((handle LoopState.init (.sync req3 ["p1"])).inFlight = 0
        ↔ (handle LoopState.init (.sync req3 ["p1"])).sending = false) ∧
      (handle LoopState.init (.sync req3 ["p1"])).received
        ≤ (handle LoopState.init (.sync req3 ["p1"])).launched.length :=
  C4_at_most_one_in_flight _ (Reachable.step (.sync req3 ["p1"]) Reachable.init trivial)

/-! ## C5: the entry picked belongs to a peer that left -/

/-- C5 fails on the code: after the requests of `p0`, `p1`, `p2`, the outcome
of the pack of `p0` can be handled when `p1` has left the registry; `pick`
returns the entry of `p1`, `send` drops it and returns, and the loop is back
to waiting with `sending` false and no goroutine started, although the entry of
`p2` is in the map and `p2` resolves. -/
theorem C5_stall_when_picked_peer_gone :
    Reachable (run LoopState.init threeRequests) ∧
      doneP1Gone.enabled (run LoopState.init threeRequests) ∧
      pick (run LoopState.init threeRequests).pending
          [("p1", ⟨"p1", [tx40 1]⟩), ("p2", ⟨"p2", [tx40 2]⟩)] 0
        = some ⟨"p1", [tx40 1]⟩ ∧
      "p1" ∉ doneP1Gone.peers ∧ "p2" ∈ doneP1Gone.peers ∧
      (handle (run LoopState.init threeRequests) doneP1Gone).pending.get? "p2"
        = some ⟨"p2", [tx40 2]⟩ ∧
      (handle (run LoopState.init threeRequests) doneP1Gone).sending = false ∧
      (handle (run LoopState.init threeRequests) doneP1Gone).launched
        = (run LoopState.init threeRequests).launched ∧
      (handle (run LoopState.init threeRequests) doneP1Gone).inFlight = 0 := by
  refine ⟨?_, ⟨by decide, by decide, fun _ => by decide⟩, by decide, by decide, by decide,
    by decide, by decide, by decide, by decide⟩
  exact Reachable.step (.sync ⟨"p2", [tx40 2]⟩ ["p0", "p1", "p2"])
    (Reachable.step (.sync ⟨"p1", [tx40 1]⟩ ["p0", "p1", "p2"])
      (Reachable.step (.sync ⟨"p0", [tx40 9]⟩ ["p0", "p1", "p2"]) Reachable.init trivial)
      trivial)
    trivial

/-! ## C6: a peer the registry does not resolve -/

/-- C6: when `getPeer(r.peerID)` finds no peer, `send` leaves the map without
an entry for `r.peerID`, keeps the entries of the other peers, the flag
`sending` and the count of values taken from `done`, and starts no goroutine;
and whatever the state and the event, a step of the loop starts at most one
goroutine, for a peer the registry resolves at that step. -/
theorem C6_peer_gone_dropped (peers : List String) (st : LoopState) (r : txSyncMsg)
    (hp : r.peerID ∉ peers) :
    (send peers st r).pending.get? r.peerID = none ∧
      (∀ k, k ≠ r.peerID → (send peers st r).pending.get? k = st.pending.get? k) ∧
      (send peers st r).sending = st.sending ∧
      (send peers st r).launched = st.launched ∧
      (send peers st r).received = st.received ∧
      ∀ (st1 : LoopState) (e : Event),
        (handle st1 e).launched = st1.launched ∨
          ∃ s : txSyncMsg, s.peerID ∈ e.peers ∧
            (handle st1 e).launched = st1.launched ++ [(s.peerID, sendTxs s.txs)] := by
  rw [send_unresolved peers st r hp]
  exact ⟨get?_delete_self _ _, fun k hk => get?_delete_ne _ _ _ hk, rfl, rfl, rfl,
    handle_launched⟩

/-- C6 at the entry of `pa` when only `pb` is connected. -/
theorem C6_peer_gone_dropped_witness :
    (send ["pb"] stBusy ⟨"pa", [tx40 1]⟩).pending.get? "pa" = none ∧
      (∀ k, k ≠ "pa" →
        (send ["pb"] stBusy ⟨"pa", [tx40 1]⟩).pending.get? k = stBusy.pending.get? k) ∧
      (send ["pb"] stBusy ⟨"pa", [tx40 1]⟩).sending = stBusy.sending ∧
      (send ["pb"] stBusy ⟨"pa", [tx40 1]⟩).launched = stBusy.launched ∧
      (send ["pb"] stBusy ⟨"pa", [tx40 1]⟩).received = stBusy.received ∧
      ∀ (st1 : LoopState) (e : Event),
        (handle st1 e).launched = st1.launched ∨
          ∃ s : txSyncMsg, s.peerID ∈ e.peers ∧
            (handle st1 e).launched = st1.launched ++ [(s.peerID, sendTxs s.txs)] :=
  C6_peer_gone_dropped ["pb"] stBusy ⟨"pa", [tx40 1]⟩ (by decide)

/-! ## C7: a pack is never empty -/

/-- C7: for a request with at least one transaction, held by the map under
its resolvable peer, the pack `send` hands to the goroutine is not empty; a
request with a single transaction, of whatever size, gives the pack of that
transaction; what remains for the peer after `send` is the request without
the pack, strictly shorter than before, and the pack followed by it is the
request; after as many turns for the peer as the request has `n` transactions
the map holds no entry for it, and the goroutines started in those turns are
at most `n`, all for that peer, each with a non-empty pack, and their packs in
the order of sending are together exactly the transactions of the request. -/
theorem C7_pack_nonempty_and_progress (peers : List String) (st : LoopState)
    (msg : txSyncMsg) (hp : msg.peerID ∈ peers) (hne : msg.txs ≠ [])
    (hget : st.pending.get? msg.peerID = some msg) :
    (send peers st msg).launched = st.launched ++ [(msg.peerID, sendTxs msg.txs)] ∧
      sendTxs msg.txs ≠ [] ∧
      (∀ tx : Tx, msg.txs = [tx] → sendTxs msg.txs = [tx]) ∧
      ((send peers st msg).remaining msg.peerID).length < msg.txs.length ∧
      ((serve peers msg.peerID)^[msg.txs.length] st).pending.get? msg.peerID = none ∧
      (send peers st msg).remaining msg.peerID = msg.txs.drop (sendTxs msg.txs).length ∧
      sendTxs msg.txs ++ (send peers st msg).remaining msg.peerID = msg.txs ∧
      ∃ sent : List (String × List Tx),
        ((serve peers msg.peerID)^[msg.txs.length] st).launched = st.launched ++ sent ∧
        sent.length ≤ msg.txs.length ∧
        (∀ x ∈ sent, x.1 = msg.peerID ∧ x.2 ≠ []) ∧
        (sent.map Prod.snd).flatten = msg.txs := by
  have hnn := sendTxs_ne_nil msg.txs hne
  have hpos : 0 < (sendTxs msg.txs).length := List.length_pos.2 hnn
  have hself := send_get?_self peers st msg hp hget
  have hrem : (send peers st msg).remaining msg.peerID
      = msg.txs.drop (sendTxs msg.txs).length := by
    unfold LoopState.remaining
    rw [hself]
    by_cases hall : sendTxs msg.txs = msg.txs
    · rw [if_pos hall]
      have hlen := (sendTxs_eq_self_iff msg.txs).1 hall
      simp [← hlen]
    · rw [if_neg hall]
  refine ⟨by simp [send, hp], hnn, ?_, ?_,
    serve_iterate_exhausts peers _ st msg hp hget hne (Nat.le_refl _), hrem, ?_,
    serve_iterate_dispatches peers _ st msg hp hget hne (Nat.le_refl _)⟩
  · intro tx htx
    rw [htx, sendTxs_eq]
    simp [packFrom, txSyncPackSize]
  · rw [hrem]
    have hlen : 0 < msg.txs.length := List.length_pos.2 hne
    simp only [List.length_drop]
    omega
  · rw [hrem]
    exact sendTxs_append_drop msg.txs

/-- C7 at the request of peer `p2` with one transaction of 500 KiB, sent in
one pack, and at the request of peer `pb` with four transactions of 40 KiB,
sent in a pack of three and a pack of one. -/
theorem C7_pack_nonempty_and_progress_witness :
    ((send ["p2"] ⟨[("p2", ⟨"p2", [tx500 1]⟩)], false, [], 0, []⟩ ⟨"p2", [tx500 1]⟩).launched
        = [] ++ [("p2", sendTxs [tx500 1])] ∧
      sendTxs [tx500 1] ≠ [] ∧
      (∀ tx : Tx, [tx500 1] = [tx] → sendTxs [tx500 1] = [tx]) ∧
      ((send ["p2"] ⟨[("p2", ⟨"p2", [tx500 1]⟩)], false, [], 0, []⟩
          ⟨"p2", [tx500 1]⟩).remaining "p2").length < [tx500 1].length ∧
      ((serve ["p2"] "p2")^[[tx500 1].length]
          ⟨[("p2", ⟨"p2", [tx500 1]⟩)], false, [], 0, []⟩).pending.get? "p2" = none ∧
      (send ["p2"] ⟨[("p2", ⟨"p2", [tx500 1]⟩)], false, [], 0, []⟩
          ⟨"p2", [tx500 1]⟩).remaining "p2" = [tx500 1].drop (sendTxs [tx500 1]).length ∧
      sendTxs [tx500 1] ++ (send ["p2"] ⟨[("p2", ⟨"p2", [tx500 1]⟩)], false, [], 0, []⟩
          ⟨"p2", [tx500 1]⟩).remaining "p2" = [tx500 1] ∧
      ∃ sent : List (String × List Tx),
        ((serve ["p2"] "p2")^[[tx500 1].length]
            ⟨[("p2", ⟨"p2", [tx500 1]⟩)], false, [], 0, []⟩).launched = [] ++ sent ∧
        sent.length ≤ [tx500 1].length ∧
        (∀ x ∈ sent, x.1 = "p2" ∧ x.2 ≠ []) ∧
        (sent.map Prod.snd).flatten = [tx500 1]) ∧
    ((send ["pa", "pb"] stBusy req4).launched
        = stBusy.launched ++ [("pb", sendTxs req4.txs)] ∧
      sendTxs req4.txs ≠ [] ∧
      (∀ tx : Tx, req4.txs = [tx] → sendTxs req4.txs = [tx]) ∧
      ((send ["pa", "pb"] stBusy req4).remaining "pb").length < req4.txs.length ∧
      ((serve ["pa", "pb"] "pb")^[req4.txs.length] stBusy).pending.get? "pb" = none ∧
      (send ["pa", "pb"] stBusy req4).remaining "pb"
        = req4.txs.drop (sendTxs req4.txs).length ∧
      sendTxs req4.txs ++ (send ["pa", "pb"] stBusy req4).remaining "pb" = req4.txs ∧
      ∃ sent : List (String × List Tx),
        ((serve ["pa", "pb"] "pb")^[req4.txs.length] stBusy).launched
          = stBusy.launched ++ sent ∧
        sent.length ≤ req4.txs.length ∧
        (∀ x ∈ sent, x.1 = "pb" ∧ x.2 ≠ []) ∧
        (sent.map Prod.snd).flatten = req4.txs) ∧
    (send ["pa", "pb"] stBusy req4).remaining "pb" = [tx40 5] ∧
    ((serve ["pa", "pb"] "pb")^[req4.txs.length] stBusy).launched
      = stBusy.launched ++ [("pb", [tx40 2, tx40 3, tx40 4]), ("pb", [tx40 5])] :=
  ⟨C7_pack_nonempty_and_progress ["p2"] ⟨[("p2", ⟨"p2", [tx500 1]⟩)], false, [], 0, []⟩
      ⟨"p2", [tx500 1]⟩ (by decide) (by decide) (by decide),
    C7_pack_nonempty_and_progress ["pa", "pb"] stBusy req4 (by decide) (by decide) (by decide),
    by decide, by decide⟩

/-! ## C8: the pack is the shortest prefix reaching the target -/

/-- C8: for a request of a resolvable peer, the pack handed to the goroutine
is a prefix of the transactions of the request; no shorter prefix of them
reaches 102400 bytes; when a transaction is left unsent the pack has at least
102400 bytes; and when no prefix reaches 102400 bytes the pack is the whole
sequence. -/
theorem C8_pack_is_shortest_prefix_reaching_target (peers : List String) (st : LoopState)
    (msg : txSyncMsg) (hp : msg.peerID ∈ peers) :
    (send peers st msg).launched = st.launched ++ [(msg.peerID, sendTxs msg.txs)] ∧
      sendTxs msg.txs = msg.txs.take (sendTxs msg.txs).length ∧
      (∀ j, j < (sendTxs msg.txs).length → wireSum (msg.txs.take j) < 102400) ∧
      ((sendTxs msg.txs).length < msg.txs.length → 102400 ≤ wireSum (sendTxs msg.txs)) ∧
      ((∀ k, wireSum (msg.txs.take k) < 102400) → sendTxs msg.txs = msg.txs) := by
  have htake : sendTxs msg.txs = msg.txs.take (sendTxs msg.txs).length := by
    rw [sendTxs_eq]; exact packFrom_eq_take msg.txs 0
  have hstop : (sendTxs msg.txs).length < msg.txs.length →
      102400 ≤ wireSum (sendTxs msg.txs) := by
    intro h
    rw [sendTxs_eq] at h ⊢
    have := packFrom_stop_ge msg.txs 0 h
    simpa [txSyncPackSize] using this
  refine ⟨by simp [send, hp], htake, ?_, hstop, ?_⟩
  · intro j hj
    rw [sendTxs_eq] at hj
    have := packFrom_prefix_lt msg.txs 0 j hj
    simpa [txSyncPackSize] using this
  · intro hall
    rw [sendTxs_eq_self_iff]
    by_contra hc
    have hlt : (sendTxs msg.txs).length < msg.txs.length := by
      have := sendTxs_length_le msg.txs
      omega
    have h1 := hstop hlt
    have h2 := hall (sendTxs msg.txs).length
    rw [← htake] at h2
    omega

/-- C8 at a request of four transactions of 40 KiB, of which one is left. -/
theorem C8_pack_is_shortest_prefix_reaching_target_witness :
    (send ["p1"] st3 ⟨"p1", [tx40 1, tx40 2, tx40 3, tx40 4]⟩).launched
        = st3.launched ++ [("p1", sendTxs [tx40 1, tx40 2, tx40 3, tx40 4])] ∧
      sendTxs [tx40 1, tx40 2, tx40 3, tx40 4]
        = [tx40 1, tx40 2, tx40 3, tx40 4].take
            (sendTxs [tx40 1, tx40 2, tx40 3, tx40 4]).length ∧
      (∀ j, j < (sendTxs [tx40 1, tx40 2, tx40 3, tx40 4]).length →
        wireSum ([tx40 1, tx40 2, tx40 3, tx40 4].take j) < 102400) ∧
      ((sendTxs [tx40 1, tx40 2, tx40 3, tx40 4]).length
          < [tx40 1, tx40 2, tx40 3, tx40 4].length →
        102400 ≤ wireSum (sendTxs [tx40 1, tx40 2, tx40 3, tx40 4])) ∧
      ((∀ k, wireSum ([tx40 1, tx40 2, tx40 3, tx40 4].take k) < 102400) →
        sendTxs [tx40 1, tx40 2, tx40 3, tx40 4] = [tx40 1, tx40 2, tx40 3, tx40 4]) :=
  C8_pack_is_shortest_prefix_reaching_target ["p1"] st3
    ⟨"p1", [tx40 1, tx40 2, tx40 3, tx40 4]⟩ (by decide)

/-! ## C9: the map after a pack was built -/

/-- C9: for a request `r` of a resolvable peer, held by the map under
`r.peerID`, after `send` the map has no entry for `r.peerID` exactly when the
pack holds all transactions of `r`; otherwise it holds `r` with the pack
dropped from the front of its transactions; the entries of the other peers
are as before, and `sending` is true. -/
theorem C9_pending_after_send (peers : List String) (st : LoopState) (r : txSyncMsg)
    (hp : r.peerID ∈ peers) (hget : st.pending.get? r.peerID = some r) :
    ((send peers st r).pending.get? r.peerID = none ↔ sendTxs r.txs = r.txs) ∧
      (sendTxs r.txs ≠ r.txs →
        (send peers st r).pending.get? r.peerID
          = some { r with txs := r.txs.drop (sendTxs r.txs).length }) ∧
      (∀ k, k ≠ r.peerID → (send peers st r).pending.get? k = st.pending.get? k) ∧
      (send peers st r).sending = true := by
  have hself := send_get?_self peers st r hp hget
  refine ⟨?_, ?_, fun k hk => send_get?_other peers st r k hk, by simp [send, hp]⟩
  · rw [hself]
    by_cases h : sendTxs r.txs = r.txs <;> simp [h]
  · intro h
    rw [hself, if_neg h]

/-- C9 at the entry of `pb`: three of its four transactions make the pack,
the fourth stays in the map, and the entry of `pa` is as before. -/
theorem C9_pending_after_send_witness :
    ((send ["pa", "pb"] stBusy req4).pending.get? "pb" = none
        ↔ sendTxs req4.txs = req4.txs) ∧
      (sendTxs req4.txs ≠ req4.txs →
        (send ["pa", "pb"] stBusy req4).pending.get? "pb"
          = some ⟨"pb", req4.txs.drop (sendTxs req4.txs).length⟩) ∧
      (∀ k, k ≠ "pb" →
        (send ["pa", "pb"] stBusy req4).pending.get? k = stBusy.pending.get? k) ∧
      (send ["pa", "pb"] stBusy req4).sending = true :=
  C9_pending_after_send ["pa", "pb"] stBusy req4 (by decide) (by decide)

/-! ## C10: a new request -/

/-- C10: handling a new request `m`: while a pack is underway the loop only
stores `m` under `m.peerID` (with all its transactions), starts no goroutine,
keeps `sending` true and the other entries; when nothing is underway the loop
runs `send` on `m` itself in the map where `m` is stored, and for a resolvable
peer the goroutine started is the one for `m`. Starting with nothing
underway, requests `m` then `m2` of two distinct resolvable peers, both with
transactions, start exactly one goroutine, for `m`, and `m2` stays whole in
the map, also through later requests of peers other than that of `m2`. -/
theorem C10_new_request (st : LoopState) (m : txSyncMsg) (peers : List String) :
    (st.sending = true →
        (handle st (.sync m peers)).pending.get? m.peerID = some m ∧
        (∀ k, k ≠ m.peerID →
          (handle st (.sync m peers)).pending.get? k = st.pending.get? k) ∧
        (handle st (.sync m peers)).launched = st.launched ∧
        (handle st (.sync m peers)).sending = true) ∧
      (st.sending = false →
        handle st (.sync m peers)
          = send peers { st with pending := st.pending.set m.peerID m } m ∧
        (m.peerID ∈ peers →
          (handle st (.sync m peers)).launched
            = st.launched ++ [(m.peerID, sendTxs m.txs)] ∧
          (handle st (.sync m peers)).sending = true ∧
          (handle st (.sync m peers)).remaining m.peerID
            = m.txs.drop (sendTxs m.txs).length)) ∧
      ∀ (m2 : txSyncMsg) (peers2 : List String), st.sending = false →
        m.peerID ≠ m2.peerID → m.peerID ∈ peers → m2.peerID ∈ peers2 →
        m.txs ≠ [] → m2.txs ≠ [] →
        (run st [.sync m peers, .sync m2 peers2]).launched
          = st.launched ++ [(m.peerID, sendTxs m.txs)] ∧
        (run st [.sync m peers, .sync m2 peers2]).pending.get? m2.peerID = some m2 ∧
        (run st [.sync m peers, .sync m2 peers2]).sending = true ∧
        ∀ es : List Event, (∀ e ∈ es, ∃ m3 peers3, e = Event.sync m3 peers3 ∧
            m3.peerID ≠ m2.peerID) →
          (run (run st [.sync m peers, .sync m2 peers2]) es).pending.get? m2.peerID
              = some m2 ∧
            (run (run st [.sync m peers, .sync m2 peers2]) es).launched
              = st.launched ++ [(m.peerID, sendTxs m.txs)] := by
  refine ⟨?_, ?_, ?_⟩
  · intro hs
    rw [handle_sync_busy st m peers hs]
    exact ⟨get?_set_self _ _ _, fun k hk => get?_set_ne _ _ _ _ hk, rfl, hs⟩
  · intro hs
    refine ⟨handle_sync_idle st m peers hs, fun hp => ?_⟩
    rw [handle_sync_idle st m peers hs]
    refine ⟨by simp [send, hp], by simp [send, hp], ?_⟩
    have hself := send_get?_self peers { st with pending := st.pending.set m.peerID m } m hp
      (get?_set_self _ _ _)
    unfold LoopState.remaining
    rw [hself]
    by_cases h : sendTxs m.txs = m.txs
    · simp [h]
    · simp [h]
  · intro m2 peers2 hst hne hp hp2 hm hm2
    have h1 : handle st (.sync m peers)
        = send peers { st with pending := st.pending.set m.peerID m } m :=
      handle_sync_idle st m peers hst
    have hl1 : (handle st (.sync m peers)).launched
        = st.launched ++ [(m.peerID, sendTxs m.txs)] := by
      rw [h1]; simp [send, hp]
    have hs1 : (handle st (.sync m peers)).sending = true := by
      rw [h1]; simp [send, hp]
    have h2 : run st [.sync m peers, .sync m2 peers2]
        = { handle st (.sync m peers) with
            pending := (handle st (.sync m peers)).pending.set m2.peerID m2 } := by
      rw [run_cons, run_cons, run_nil, handle_sync_busy _ m2 peers2 hs1]
    have hg2 : (run st [.sync m peers, .sync m2 peers2]).pending.get? m2.peerID
        = some m2 := by
      rw [h2]; exact get?_set_self _ _ _
    have hl2 : (run st [.sync m peers, .sync m2 peers2]).launched
        = st.launched ++ [(m.peerID, sendTxs m.txs)] := by
      rw [h2]; exact hl1
    have hs2 : (run st [.sync m peers, .sync m2 peers2]).sending = true := by
      rw [h2]; exact hs1
    refine ⟨hl2, hg2, hs2, fun es hes => ?_⟩
    have := run_syncs_busy m2.peerID es _ hs2 hes
    exact ⟨this.1.trans hg2, this.2.1.trans hl2⟩

/-- C10 at a request of `pa` arriving while a pack is underway, at the request
of `p1` arriving in the initial state, and at the requests of `p1` then `pb`
followed by one of `pa`. -/
theorem C10_new_request_witness :
    ((handle stBusy (.sync ⟨"pa", [tx40 7, tx40 8]⟩ ["pa", "pb"])).pending.get? "pa"
          = some ⟨"pa", [tx40 7, tx40 8]⟩ ∧
        (∀ k, k ≠ "pa" →
          (handle stBusy (.sync ⟨"pa", [tx40 7, tx40 8]⟩ ["pa", "pb"])).pending.get? k
            = stBusy.pending.get? k) ∧
        (handle stBusy (.sync ⟨"pa", [tx40 7, tx40 8]⟩ ["pa", "pb"])).launched
          = stBusy.launched ∧
        (handle stBusy (.sync ⟨"pa", [tx40 7, tx40 8]⟩ ["pa", "pb"])).sending = true) ∧
      ((handle LoopState.init (.sync req3 ["p1"])).launched
          = [] ++ [("p1", sendTxs req3.txs)] ∧
        (handle LoopState.init (.sync req3 ["p1"])).sending = true ∧
        (handle LoopState.init (.sync req3 ["p1"])).remaining "p1"
          = req3.txs.drop (sendTxs req3.txs).length) ∧
      ((run LoopState.init [.sync req3 ["p1"], .sync req4 ["p1", "pb"]]).launched
          = [] ++ [("p1", sendTxs req3.txs)] ∧
        (run LoopState.init [.sync req3 ["p1"], .sync req4 ["p1", "pb"]]).pending.get? "pb"
          = some req4 ∧
        (run (run LoopState.init [.sync req3 ["p1"], .sync req4 ["p1", "pb"]])
            [.sync ⟨"pa", [tx40 1]⟩ []]).pending.get? "pb" = some req4) :=
  ⟨(C10_new_request stBusy ⟨"pa", [tx40 7, tx40 8]⟩ ["pa", "pb"]).1 rfl,
    ((C10_new_request LoopState.init req3 ["p1"]).2.1 rfl).2 (by decide),
    have h := (C10_new_request LoopState.init req3 ["p1"]).2.2 req4 ["p1", "pb"] rfl
      (by decide) (by decide) (by decide) (by decide) (by decide)
    ⟨h.1, h.2.1, (h.2.2.2 [.sync ⟨"pa", [tx40 1]⟩ []]
      (fun e he => ⟨⟨"pa", [tx40 1]⟩, [], by simpa using he, by decide⟩)).1⟩⟩

/-! ## C11: the choice made by `pick` -/

/-- C11: for a map whose iteration order is `order`, `pick` returns nil for
an empty map; for a map of `N` entries and a draw `r` below `N` it returns the
entry at place `r` of the iteration order, an entry of the map; so it returns
nil exactly when the map is empty, two different draws below `N` return
different entries, and every entry of the map is returned by a draw below
`N`. -/
theorem C11_pick_is_a_bijection (pending : PendingTable)
    (order : List (String × txSyncMsg)) (hw : pending.WF) (hp : order.Perm pending) :
    (∀ r, pending = [] → pick pending order r = none) ∧
      (∀ r, r < pending.length →
        ∃ e ∈ pending, order[r]? = some e ∧ pick pending order r = some e.2) ∧
      (∀ r, (pending ≠ [] → r < pending.length) →
        (pick pending order r = none ↔ pending = [])) ∧
      (∀ r₁ r₂, r₁ < pending.length → r₂ < pending.length →
        pick pending order r₁ = pick pending order r₂ → r₁ = r₂) ∧
      (∀ e ∈ pending, ∃ r, r < pending.length ∧ pick pending order r = some e.2) := by
  refine ⟨?_, pick_lt pending order hp, ?_, ?_, ?_⟩
  · intro r h
    rw [h]; exact pick_nil order r
  · intro r hr
    constructor
    · intro hnone
      by_contra hne
      obtain ⟨e, _, _, he⟩ := pick_lt pending order hp r (hr hne)
      rw [he] at hnone
      exact absurd hnone (by simp)
    · intro h
      rw [h]; exact pick_nil order r
  · intro r₁ r₂ h1 h2 heq
    obtain ⟨a, ha, hao, hpa⟩ := pick_lt pending order hp r₁ h1
    obtain ⟨b, hb, hbo, hpb⟩ := pick_lt pending order hp r₂ h2
    rw [hpa, hpb] at heq
    have hab : a = b := hw.snd_injective ha hb (Option.some.inj heq)
    have hnd : order.Nodup := hp.nodup_iff.2 hw.nodup
    have hl1 : r₁ < order.length := by rw [hp.length_eq]; exact h1
    have hl2 : r₂ < order.length := by rw [hp.length_eq]; exact h2
    rw [List.getElem?_eq_getElem hl1] at hao
    rw [List.getElem?_eq_getElem hl2] at hbo
    have : order[r₁] = order[r₂] := by
      rw [Option.some.inj hao, Option.some.inj hbo, hab]
    exact (hnd.getElem_inj_iff).1 this
  · intro e he
    have hmem : e ∈ order := hp.mem_iff.2 he
    obtain ⟨r, hr, hre⟩ := List.getElem_of_mem hmem
    have hr2 : r < pending.length := by rw [← hp.length_eq]; exact hr
    obtain ⟨a, _, hao, hpa⟩ := pick_lt pending order hp r hr2
    rw [List.getElem?_eq_getElem hr, hre] at hao
    refine ⟨r, hr2, ?_⟩
    rw [hpa, ← Option.some.inj hao]

/-- C11 at the map of `pa` and `pb`, iterated with `pb` first. -/
theorem C11_pick_is_a_bijection_witness :
    (∀ r, stBusy.pending = [] →
        pick stBusy.pending [("pb", req4), ("pa", ⟨"pa", [tx40 1]⟩)] r = none) ∧
      (∀ r, r < stBusy.pending.length →
        ∃ e ∈ stBusy.pending, [("pb", req4), ("pa", ⟨"pa", [tx40 1]⟩)][r]? = some e ∧
          pick stBusy.pending [("pb", req4), ("pa", ⟨"pa", [tx40 1]⟩)] r = some e.2) ∧
      (∀ r, (stBusy.pending ≠ [] → r < stBusy.pending.length) →
        (pick stBusy.pending [("pb", req4), ("pa", ⟨"pa", [tx40 1]⟩)] r = none
          ↔ stBusy.pending = [])) ∧
      (∀ r₁ r₂, r₁ < stBusy.pending.length → r₂ < stBusy.pending.length →
        pick stBusy.pending [("pb", req4), ("pa", ⟨"pa", [tx40 1]⟩)] r₁
          = pick stBusy.pending [("pb", req4), ("pa", ⟨"pa", [tx40 1]⟩)] r₂ → r₁ = r₂) ∧
      (∀ e ∈ stBusy.pending, ∃ r, r < stBusy.pending.length ∧
        pick stBusy.pending [("pb", req4), ("pa", ⟨"pa", [tx40 1]⟩)] r = some e.2) :=
  C11_pick_is_a_bijection stBusy.pending [("pb", req4), ("pa", ⟨"pa", [tx40 1]⟩)]
    ⟨by decide, by decide⟩ (by decide)

/-! ## C12: the outcome of a pack -/

/-- C12: handling a value taken from `done`: `sending` is reset and the count
of values taken grows by one; with an empty map nothing more happens; with a
map that has entries `pick` returns one of them and the loop runs `send` on
it; the error, if any, is appended to the warnings and nothing else depends on
it: map, `sending` and goroutines started are those of the same event without
error. -/
theorem C12_outcome_handled (st : LoopState) (err : Option String) (peers : List String)
    (order : List (String × txSyncMsg)) (r : Nat)
    (hen : (Event.done err peers order r).enabled st) :
    (st.tookDone err).sending = false ∧
      (st.pending = [] → handle st (.done err peers order r) = st.tookDone err) ∧
      (st.pending ≠ [] → ∃ e ∈ st.pending, pick st.pending order r = some e.2 ∧
        handle st (.done err peers order r) = send peers (st.tookDone err) e.2) ∧
      (handle st (.done err peers order r)).pending
        = (handle st (.done none peers order r)).pending ∧
      (handle st (.done err peers order r)).sending
        = (handle st (.done none peers order r)).sending ∧
      (handle st (.done err peers order r)).launched
        = (handle st (.done none peers order r)).launched ∧
      (handle st (.done err peers order r)).received = st.received + 1 ∧
      (handle st (.done err peers order r)).warned = st.warned ++ err.toList := by
  have hirr := handle_done_err_irrelevant st err peers order r
  have hwr := handle_done_warned st err peers order r
  refine ⟨rfl, ?_, ?_, hirr.1, hirr.2.1, hirr.2.2, hwr.2, hwr.1⟩
  · intro hempty
    rw [handle_done, hempty, pick_nil]
  · intro hne
    obtain ⟨e, he, _, hpk⟩ := pick_lt st.pending order hen.2.1 r (hen.2.2 hne)
    refine ⟨e, he, hpk, ?_⟩
    rw [handle_done, hpk]

/-- C12 at the failed pack of `pc` while `pa` and `pb` wait: the draw 1 serves
`pb`, the error is logged. -/
theorem C12_outcome_handled_witness :
    (stBusy.tookDone (some "timeout")).sending = false ∧
      (stBusy.pending = [] →
        handle stBusy (.done (some "timeout") ["pa", "pb"] stBusy.pending 1)
          = stBusy.tookDone (some "timeout")) ∧
      (stBusy.pending ≠ [] → ∃ e ∈ stBusy.pending,
        pick stBusy.pending stBusy.pending 1 = some e.2 ∧
        handle stBusy (.done (some "timeout") ["pa", "pb"] stBusy.pending 1)
          = send ["pa", "pb"] (stBusy.tookDone (some "timeout")) e.2) ∧
      (handle stBusy (.done (some "timeout") ["pa", "pb"] stBusy.pending 1)).pending
        = (handle stBusy (.done none ["pa", "pb"] stBusy.pending 1)).pending ∧
      (handle stBusy (.done (some "timeout") ["pa", "pb"] stBusy.pending 1)).sending
        = (handle stBusy (.done none ["pa", "pb"] stBusy.pending 1)).sending ∧
      (handle stBusy (.done (some "timeout") ["pa", "pb"] stBusy.pending 1)).launched
        = (handle stBusy (.done none ["pa", "pb"] stBusy.pending 1)).launched ∧
      (handle stBusy (.done (some "timeout") ["pa", "pb"] stBusy.pending 1)).received
        = stBusy.received + 1 ∧
      (handle stBusy (.done (some "timeout") ["pa", "pb"] stBusy.pending 1)).warned
        = stBusy.warned ++ (some "timeout").toList :=
  C12_outcome_handled stBusy (some "timeout") ["pa", "pb"] stBusy.pending 1
    ⟨by decide, by decide, fun _ => by decide⟩

/-! ## C13: a new request replaces the entry of its peer -/

/-- C13: after a new request `m` is handled in a reachable state, the map has
at most one entry under `m.peerID`; that entry is determined by `m` alone
(`m` itself while a pack is underway, otherwise `m` without its first pack,
or nothing), the same as when the old entry of the peer had been deleted
first; its transactions are a suffix of those of `m`. -/
theorem C13_new_request_replaces_entry (st : LoopState) (h : Reachable st) (m : txSyncMsg)
    (peers : List String) :
    ((handle st (.sync m peers)).pending.filter (fun e => e.1 == m.peerID)).length ≤ 1 ∧
      (handle st (.sync m peers)).pending.get? m.peerID
        = (if st.sending = true then some m
           else if m.peerID ∈ peers then
             (if sendTxs m.txs = m.txs then none
              else some { m with txs := m.txs.drop (sendTxs m.txs).length })
           else none) ∧
      (handle st (.sync m peers)).pending.get? m.peerID
        = (handle { st with pending := st.pending.delete m.peerID }
            (.sync m peers)).pending.get? m.peerID ∧
      (∀ v, (handle st (.sync m peers)).pending.get? m.peerID = some v →
        v.peerID = m.peerID ∧ v.txs <:+ m.txs) ∧
      (handle st (.sync m peers)).remaining m.peerID <:+ m.txs := by
  have hform := handle_sync_get?_self st m peers
  have hw : (handle st (.sync m peers)).pending.WF := handle_WF st _ (reachable_WF h)
  have hsuf : ∀ v, (handle st (.sync m peers)).pending.get? m.peerID = some v →
      v.peerID = m.peerID ∧ v.txs <:+ m.txs := by
    intro v hv
    rw [hform] at hv
    split_ifs at hv with h1 h2 h3
    · cases Option.some.inj hv
      exact ⟨rfl, List.suffix_refl _⟩
    · cases Option.some.inj hv
      exact ⟨rfl, List.drop_suffix _ _⟩
  refine ⟨filter_key_length_le_one _ _ hw.1, hform, ?_, hsuf, ?_⟩
  · rw [hform, handle_sync_get?_self]
  · unfold LoopState.remaining
    cases hg : (handle st (.sync m peers)).pending.get? m.peerID with
    | none => exact List.nil_suffix
    | some v => exact (hsuf v hg).2

/-- C13 at a second request of `p1`, arriving while the first pack of its
earlier request is underway and one transaction of that request is unsent. -/
theorem C13_new_request_replaces_entry_witness :
    (handle LoopState.init (.sync req4p1 ["p1"])).pending.get? "p1"
        = some ⟨"p1", [tx40 4]⟩ ∧
      (handle (handle LoopState.init (.sync req4p1 ["p1"]))
          (.sync ⟨"p1", [tx40 7, tx40 8]⟩ ["p1"])).pending.get? "p1"
        = some ⟨"p1", [tx40 7, tx40 8]⟩ ∧
      ((handle (handle LoopState.init (.sync req4p1 ["p1"]))
          (.sync ⟨"p1", [tx40 7, tx40 8]⟩ ["p1"])).pending.filter
            (fun e => e.1 == "p1")).length ≤ 1 ∧
      (handle (handle LoopState.init (.sync req4p1 ["p1"]))
          (.sync ⟨"p1", [tx40 7, tx40 8]⟩ ["p1"])).remaining "p1"
        <:+ [tx40 7, tx40 8] :=
  have h := C13_new_request_replaces_entry (handle LoopState.init (.sync req4p1 ["p1"]))
    (Reachable.step (.sync req4p1 ["p1"]) Reachable.init trivial)
    ⟨"p1", [tx40 7, tx40 8]⟩ ["p1"]
  ⟨by decide, h.2.1, h.1, h.2.2.2.2⟩

/-! ## C14: `syncTransactions` -/

/-- C14: for every peer identifier and every backlog returned by the pool,
`syncTransactions` sends nothing on `txSyncCh` when the backlog is empty;
otherwise it sends exactly one message, whose `peerID` is the identifier given
and whose transactions are as many as the descriptors and hold at each index
the transaction of the descriptor of that index. -/
theorem C14_syncTransactions_message (peerID : String) (pending : List TxDesc)
    (txSyncCh : List txSyncMsg) :
    (pending = [] → syncTransactions peerID pending txSyncCh = txSyncCh) ∧
      (pending ≠ [] → ∃ msg : txSyncMsg,
        syncTransactions peerID pending txSyncCh = txSyncCh ++ [msg] ∧
        msg.peerID = peerID ∧ msg.txs.length = pending.length ∧
        (∀ i : Nat, msg.txs[i]? = (pending[i]?).map TxDesc.Tx) ∧
        msg.txs = pending.map TxDesc.Tx) := by
  constructor
  · intro h
    simp [syncTransactions, h]
  · intro h
    have hlen : ¬ pending.length = 0 := fun hc => h (List.length_eq_zero.1 hc)
    refine ⟨⟨peerID, pending.map TxDesc.Tx⟩, ?_, rfl, by simp, ?_, rfl⟩
    · simp only [syncTransactions, if_neg hlen, fillTxs_replicate]
    · intro i
      simp

/-- C14 at a backlog of two descriptors and at the empty backlog. -/
theorem C14_syncTransactions_message_witness :
    syncTransactions "p1" [] [req3] = [req3] ∧
      ∃ msg : txSyncMsg,
        syncTransactions "p1" [⟨tx40 1, 7⟩, ⟨tx500 2, 8⟩] [] = [] ++ [msg] ∧
        msg.peerID = "p1" ∧
        msg.txs.length = [(⟨tx40 1, 7⟩ : TxDesc), ⟨tx500 2, 8⟩].length ∧
        (∀ i : Nat, msg.txs[i]?
          = ([(⟨tx40 1, 7⟩ : TxDesc), ⟨tx500 2, 8⟩][i]?).map TxDesc.Tx) ∧
        msg.txs = [(⟨tx40 1, 7⟩ : TxDesc), ⟨tx500 2, 8⟩].map TxDesc.Tx :=
  ⟨(C14_syncTransactions_message "p1" [] [req3]).1 rfl,
    (C14_syncTransactions_message "p1" [⟨tx40 1, 7⟩, ⟨tx500 2, 8⟩] []).2 (by simp)⟩

/-! ## C15: `txBroadcastLoop` -/

/-- C15: when the `select` of `txBroadcastLoop` receives a sequence of new
transactions and then the signal on `quitSync`, the function has called
`broadcastTx` once for each of the transactions, in the order of arrival,
whatever errors the calls returned (the errors are logged, one line per failed
call), and it has returned, leaving the later events unread; with no signal it
makes the same calls and does not return. -/
theorem C15_broadcast_once_per_tx (txs : List (Tx × Option String))
    (rest : List RelayEvent) (st : RelayState) :
    txBroadcastLoop (txs.map (fun p => RelayEvent.newTx p.1 p.2) ++ .quitSync :: rest) st
        = ({ broadcast := st.broadcast ++ txs.map Prod.fst,
             logged := st.logged ++ txs.filterMap Prod.snd,
             returned := true }, rest) ∧
      txBroadcastLoop (txs.map (fun p => RelayEvent.newTx p.1 p.2)) st
        = ({ broadcast := st.broadcast ++ txs.map Prod.fst,
             logged := st.logged ++ txs.filterMap Prod.snd,
             returned := st.returned }, []) := by
  constructor
  · rw [txBroadcastLoop_newTxs]
    rfl
  · have h := txBroadcastLoop_newTxs txs [] st
    rw [List.append_nil] at h
    rw [h]
    rfl

/-! ## C16: no entry without transactions -/

/-- C16: when every request the loop receives carries at least one
transaction, then after any sequence of events, starting from the initial
state, every entry of the map has at least one transaction; `send` leaves no
entry for a peer that does not resolve, nor for a request whose transactions
all went into the pack. -/
theorem C16_no_empty_entries (es : List Event) (hc : ∀ e ∈ es, e.carriesTxs) :
    (run LoopState.init es).pending.noEmpty ∧
      (∀ (peers : List String) (st : LoopState) (s : txSyncMsg), s.peerID ∉ peers →
        (send peers st s).pending.get? s.peerID = none) ∧
      (∀ (peers : List String) (st : LoopState) (s : txSyncMsg), sendTxs s.txs = s.txs →
        (send peers st s).pending.get? s.peerID = none) := by
  refine ⟨run_noEmpty es _ hc (fun e he => by simp [LoopState.init] at he), ?_, ?_⟩
  · intro peers st s hp
    rw [send_unresolved peers st s hp]
    exact get?_delete_self _ _
  · intro peers st s hall
    by_cases hp : s.peerID ∈ peers
    · rw [send_resolved peers st s hp]
      simp only [if_pos ((sendTxs_eq_self_iff _).1 hall)]
      exact get?_delete_self _ _
    · rw [send_unresolved peers st s hp]
      exact get?_delete_self _ _

/-- C16 after the requests of four transactions of `p1` and of `pb`: the
entry of `p1` holds its fourth transaction, that of `pb` all four. -/
theorem C16_no_empty_entries_witness :
    (run LoopState.init [.sync req4p1 ["p1", "pb"], .sync req4 ["p1", "pb"]]).pending.noEmpty ∧
      (∀ (peers : List String) (st : LoopState) (s : txSyncMsg), s.peerID ∉ peers →
        (send peers st s).pending.get? s.peerID = none) ∧
      (∀ (peers : List String) (st : LoopState) (s : txSyncMsg), sendTxs s.txs = s.txs →
        (send peers st s).pending.get? s.peerID = none) :=
  C16_no_empty_entries [.sync req4p1 ["p1", "pb"], .sync req4 ["p1", "pb"]]
    (fun e he => by
      simp only [List.mem_cons, List.mem_singleton, List.not_mem_nil, or_false] at he
      rcases he with rfl | rfl
      · exact (by decide : req4p1.txs ≠ [])
      · exact (by decide : req4.txs ≠ []))

/-! ## C17: what makes a pack larger than the target -/

/-- C17: for a request of a resolvable peer, the pack handed to the goroutine
weighs less than `txSyncPackSize` plus the wire size of its last transaction
(an empty pack weighs nothing); and the pack of three transactions of 40960
bytes weighs 122880 bytes, more than the target of 102400, although each of
its transactions is below the target. -/
theorem C17_pack_over_target_by_last_only (peers : List String) (st : LoopState)
    (msg : txSyncMsg) (hp : msg.peerID ∈ peers) :
    (send peers st msg).launched = st.launched ++ [(msg.peerID, sendTxs msg.txs)] ∧
      (∀ last, (sendTxs msg.txs).getLast? = some last →
        wireSum (sendTxs msg.txs) < txSyncPackSize + last.wireLen) ∧
      (sendTxs msg.txs = [] → wireSum (sendTxs msg.txs) = 0) ∧
      (txSyncPackSize < wireSum (sendTxs req3.txs) ∧ wireSum (sendTxs req3.txs) = 122880 ∧
        ∀ tx ∈ sendTxs req3.txs, tx.wireLen < txSyncPackSize) := by
  refine ⟨by simp [send, hp], ?_, ?_, by decide⟩
  · intro last hlast
    have hsplit : (sendTxs msg.txs).dropLast ++ [last] = sendTxs msg.txs :=
      List.dropLast_append_getLast? last hlast
    have hlt := sendTxs_dropLast_lt msg.txs
    have hsum : wireSum (sendTxs msg.txs)
        = wireSum (sendTxs msg.txs).dropLast + last.wireLen := by
      conv_lhs => rw [← hsplit]
      simp [wireSum_append]
    omega
  · intro h
    rw [h]
    rfl

/-- C17 at the request of three transactions of 40 KiB. -/
theorem C17_pack_over_target_by_last_only_witness :
    (send ["p1"] st3 req3).launched = st3.launched ++ [("p1", sendTxs req3.txs)] ∧
      (∀ last, (sendTxs req3.txs).getLast? = some last →
        wireSum (sendTxs req3.txs) < txSyncPackSize + last.wireLen) ∧
      (sendTxs req3.txs = [] → wireSum (sendTxs req3.txs) = 0) ∧
      (txSyncPackSize < wireSum (sendTxs req3.txs) ∧ wireSum (sendTxs req3.txs) = 122880 ∧
        ∀ tx ∈ sendTxs req3.txs, tx.wireLen < txSyncPackSize) :=
  C17_pack_over_target_by_last_only ["p1"] st3 req3 (by decide)

/-! ## C18: waiting with work left -/

/-- C18: the loop can reach a state in which it waits with `sending` false
and no goroutine underway while the map holds an entry for a peer that
resolves (here `p2`, after `p1` left). In a reachable state with `sending`
false the only event that can occur is a new request; a new request handled
then is served itself; and requests of other peers, however many, neither
change the entry of a peer nor start a goroutine for it: that entry is served
only once a value is taken from `done` again and `pick` returns it. -/
theorem C18_idle_with_pending_entry :
    (Reachable stStranded ∧ stStranded.sending = false ∧ stStranded.inFlight = 0 ∧
        stStranded.pending.get? "p2" = some ⟨"p2", [tx40 2]⟩ ∧ "p2" ∈ doneP1Gone.peers) ∧
      (∀ st : LoopState, Reachable st → st.sending = false →
        ∀ e : Event, e.enabled st → ∃ m peers, e = Event.sync m peers) ∧
      (∀ (st : LoopState) (m : txSyncMsg) (peers : List String), st.sending = false →
        m.peerID ∈ peers →
        (handle st (.sync m peers)).launched = st.launched ++ [(m.peerID, sendTxs m.txs)]) ∧
      (∀ (st : LoopState) (p : String) (es : List Event),
        (∀ e ∈ es, ∃ m peers, e = Event.sync m peers ∧ m.peerID ≠ p) →
        (run st es).pending.get? p = st.pending.get? p ∧
          sentTo p (run st es).launched = sentTo p st.launched) := by
  refine ⟨⟨?_, by decide, by decide, by decide, by decide⟩,
    fun st h hs e hen => idle_only_sync h hs e hen, ?_,
    fun st p es hes => run_syncs_other p es st hes⟩
  · exact Reachable.step doneP1Gone
      (Reachable.step (.sync ⟨"p2", [tx40 2]⟩ ["p0", "p1", "p2"])
        (Reachable.step (.sync ⟨"p1", [tx40 1]⟩ ["p0", "p1", "p2"])
          (Reachable.step (.sync ⟨"p0", [tx40 9]⟩ ["p0", "p1", "p2"]) Reachable.init trivial)
          trivial)
        trivial)
      ⟨by decide, by decide, fun _ => by decide⟩
  · intro st m peers hs hp
    rw [handle_sync_idle st m peers hs]
    simp [send, hp]

/-- C18 at the stranded entry of `p2`: a request of `p3` arrives, is served
itself, and the entry of `p2` is as before. -/
theorem C18_idle_with_pending_entry_witness :
    (handle stStranded (.sync ⟨"p3", [tx40 5]⟩ ["p2", "p3"])).launched
        = stStranded.launched ++ [("p3", sendTxs [tx40 5])] ∧
      (run stStranded [.sync ⟨"p3", [tx40 5]⟩ ["p2", "p3"]]).pending.get? "p2"
        = stStranded.pending.get? "p2" ∧
      sentTo "p2" (run stStranded [.sync ⟨"p3", [tx40 5]⟩ ["p2", "p3"]]).launched
        = sentTo "p2" stStranded.launched :=
  ⟨C18_idle_with_pending_entry.2.2.1 stStranded ⟨"p3", [tx40 5]⟩ ["p2", "p3"]
      (by decide) (by decide),
    C18_idle_with_pending_entry.2.2.2 stStranded "p2" [.sync ⟨"p3", [tx40 5]⟩ ["p2", "p3"]]
      (fun e he => ⟨⟨"p3", [tx40 5]⟩, ["p2", "p3"], by simpa using he, by decide⟩)⟩

end netsync
